import Mathlib

/-!
# Verification of the yamltranslator core

Shallow embedding of the core of the `yamltranslator` repository
(`src/core/formatter.py`, `src/core/reverser.py`, `src/core/translator.py`,
`src/utils/telemetry.py`) and proofs about the claims of its specification.

Python strings are modelled as `List Char` (a Python `str` is a sequence of
Unicode codepoints).  Python dicts are modelled as association lists in
insertion order: assignment to an existing key keeps its position, assignment
to a fresh key appends at the end, exactly as CPython dicts behave.
Fallible Python code (code that can raise) is modelled with `Option`.
-/

namespace YamlTranslator

/-- A Python `str`: a sequence of Unicode codepoints. -/
abbrev PyStr := List Char

/-! ## `SMALL_CAPS_MAP` and `REVERSE_SMALL_CAPS_MAP`

Transcribed from `src/core/formatter.py` lines 11-16 and
`src/core/reverser.py` lines 11-16.  Every value in the Python dicts is a
single codepoint, so the maps are `Char × Char` association lists. -/

def SMALL_CAPS_MAP : List (Char × Char) :=
  [('a', 'ᴀ'), ('b', 'ʙ'), ('c', 'ᴄ'), ('d', 'ᴅ'), ('e', 'ᴇ'), ('f', 'ꜰ'),
   ('g', 'ɢ'), ('h', 'ʜ'), ('i', 'ɪ'), ('j', 'ᴊ'), ('k', 'ᴋ'), ('l', 'ʟ'),
   ('m', 'ᴍ'), ('n', 'ɴ'), ('o', 'ᴏ'), ('p', 'ᴘ'), ('q', 'ǫ'), ('r', 'ʀ'),
   ('s', 's'), ('t', 'ᴛ'), ('u', 'ᴜ'), ('v', 'ᴠ'), ('w', 'ᴡ'), ('x', 'x'),
   ('y', 'ʏ'), ('z', 'ᴢ')]

def REVERSE_SMALL_CAPS_MAP : List (Char × Char) :=
  [('ᴀ', 'a'), ('ʙ', 'b'), ('ᴄ', 'c'), ('ᴅ', 'd'), ('ᴇ', 'e'), ('ꜰ', 'f'),
   ('ɢ', 'g'), ('ʜ', 'h'), ('ɪ', 'i'), ('ᴊ', 'j'), ('ᴋ', 'k'), ('ʟ', 'l'),
   ('ᴍ', 'm'), ('ɴ', 'n'), ('ᴏ', 'o'), ('ᴘ', 'p'), ('ǫ', 'q'), ('ʀ', 'r'),
   ('s', 's'), ('ᴛ', 't'), ('ᴜ', 'u'), ('ᴠ', 'v'), ('ᴡ', 'w'), ('x', 'x'),
   ('ʏ', 'y'), ('ᴢ', 'z')]

/-- Python `m.get(c, dflt)` on a `Char`-keyed dict. -/
def charMapGet (m : List (Char × Char)) (c : Char) (dflt : Char) : Char :=
  match m.find? (fun p => p.1 = c) with
  | some p => p.2
  | none => dflt

/-- `SMALL_CAPS_MAP.get(char.lower(), char)` — the per-character substitution
of `to_small_caps`.  Python `str.lower` on a single ASCII codepoint agrees
with `Char.toLower`; the table's keys are the ASCII letters `a`-`z`, so the
lookup only responds to ASCII letters. -/
def smallCapsChar (c : Char) : Char :=
  charMapGet SMALL_CAPS_MAP c.toLower c

/-- `REVERSE_SMALL_CAPS_MAP.get(char, char)` — the per-character substitution
of `from_small_caps` (no lowercasing on the reverse side). -/
def reverseSmallCapsChar (c : Char) : Char :=
  charMapGet REVERSE_SMALL_CAPS_MAP c c

/-! ## The placeholder regex

Both `to_small_caps` and `from_small_caps` use
`placeholder_pattern = r'(%[^%]*%|\x7b[^\x7d]*\x7d|&[a-zA-Z0-9])'` and walk the
input with `re.finditer`.  The three alternatives start with the distinct
characters `%`, `{`, `&`, so at any position at most one alternative can
match, and the greedy `[^%]*` / `[^}]*` runs to the first closing delimiter. -/

/-- `[a-zA-Z0-9]` (ASCII literal ranges in the Python regex). -/
def isAsciiAlnum (c : Char) : Bool :=
  ('a' ≤ c && c ≤ 'z') || ('A' ≤ c && c ≤ 'Z') || ('0' ≤ c && c ≤ '9')

/-- Match a delimited span: at a position holding the opening delimiter
`open_`, the greedy `[^close]*` runs to the first `close` delimiter, which
must exist for the alternative to match. -/
def matchSpan (close : Char) (first : Char) (rest : PyStr) :
    Option (PyStr × PyStr) :=
  let middle := rest.takeWhile (fun c => c ≠ close)
  match rest.drop middle.length with
  | c2 :: rest2 =>
      if c2 = close then some (first :: middle ++ [close], rest2) else none
  | [] => none

/-- Try to match the placeholder pattern at the start of `s`.  On success
returns the matched span and the rest of the input after the match. -/
def matchPlaceholderAt (s : PyStr) : Option (PyStr × PyStr) :=
  match s with
  | [] => none
  | c :: rest =>
      if c = '%' then matchSpan '%' c rest
      else if c = '{' then matchSpan '}' c rest
      else if c = '&' then
        match rest with
        | c2 :: rest2 => if isAsciiAlnum c2 then some ([c, c2], rest2) else none
        | [] => none
      else none

/-- `re.finditer(placeholder_pattern, text)`: scan left to right; after a
match continue after its end, otherwise advance one position.  Structured
with explicit fuel (one unit per consumed character) so that the definition
is structurally recursive; `findPlaceholders` supplies enough fuel. -/
def findPlaceholdersAux : Nat → PyStr → List PyStr
  | 0, _ => []
  | _ + 1, [] => []
  | fuel + 1, c :: rest =>
      match matchPlaceholderAt (c :: rest) with
      | some (m, after) => m :: findPlaceholdersAux fuel after
      | none => findPlaceholdersAux fuel rest

/-- The list of placeholder matches of `text`, in order of first occurrence. -/
def findPlaceholders (text : PyStr) : List PyStr :=
  findPlaceholdersAux text.length text

/-! ## Python `str.replace` -/

/-- Python `s.replace(old, new, 1)`: replace the first occurrence of `old`
(for empty `old`, CPython inserts `new` at the front). -/
def replaceOne (old new : PyStr) : PyStr → PyStr
  | [] => if old.isPrefixOf [] then new else []
  | c :: rest =>
      if old.isPrefixOf (c :: rest) then new ++ (c :: rest).drop old.length
      else c :: replaceOne old new rest

/-- Fuelled core of `str.replace` without a count, for non-empty `old`:
replace every non-overlapping occurrence, scanning left to right. -/
def replaceAllAux (old new : PyStr) : Nat → PyStr → PyStr
  | 0, s => s
  | _ + 1, [] => []
  | fuel + 1, c :: rest =>
      if old ≠ [] && old.isPrefixOf (c :: rest) then
        new ++ replaceAllAux old new fuel ((c :: rest).drop old.length)
      else c :: replaceAllAux old new fuel rest

/-- Python `s.replace(old, new)` (all occurrences).  For empty `old` CPython
inserts `new` before every character and at the end. -/
def replaceAll (old new s : PyStr) : PyStr :=
  if old = [] then new ++ s.flatMap (fun c => c :: new)
  else replaceAllAux old new s.length s

/-- Python `needle in hay` on strings (substring containment). -/
def hasSub (needle : PyStr) : PyStr → Bool
  | [] => needle.isPrefixOf []
  | c :: rest => needle.isPrefixOf (c :: rest) || hasSub needle rest

/-! ## `to_small_caps` and `from_small_caps`

`src/core/formatter.py` lines 40-65 and `src/core/reverser.py` lines 40-65.
Both functions: find the placeholder matches, replace the first occurrence of
each match in `temp_text` by the numbered sentinel `__PLACEHOLDER_{i}__`,
substitute every character of the remaining text through the lookup table,
then replace each sentinel string back by its captured span. -/

/-- The sentinel `f"__PLACEHOLDER_{i}__"`. -/
def sentinel (i : Nat) : PyStr :=
  "__PLACEHOLDER_".toList ++ (Nat.repr i).toList ++ "__".toList

/-- The placeholder-extraction loop shared by both transcoders: successively
replace the first occurrence of the `i`-th match by `sentinel i`. -/
def extractPlaceholders (text : PyStr) (placeholders : List PyStr) : PyStr :=
  (placeholders.enum).foldl (fun t p => replaceOne p.2 (sentinel p.1) t) text

/-- The restore loop shared by both transcoders: replace every occurrence of
`sentinel i` by the `i`-th captured span. -/
def restorePlaceholders (result : PyStr) (placeholders : List PyStr) : PyStr :=
  (placeholders.enum).foldl (fun r p => replaceAll (sentinel p.1) p.2 r) result

/-- `to_small_caps` (`src/core/formatter.py` lines 40-65), on string input. -/
def to_small_caps (text : PyStr) : PyStr :=
  let placeholders := findPlaceholders text
  let temp_text := extractPlaceholders text placeholders
  let result := temp_text.map smallCapsChar
  restorePlaceholders result placeholders

/-- `from_small_caps` (`src/core/reverser.py` lines 40-65), on string input. -/
def from_small_caps (text : PyStr) : PyStr :=
  let placeholders := findPlaceholders text
  let temp_text := extractPlaceholders text placeholders
  let result := temp_text.map reverseSmallCapsChar
  restorePlaceholders result placeholders

/-! ## YAML trees and the flatten/unflatten transform

`flatten_yaml` and `unflatten_yaml` appear verbatim in `formatter.py`
(lines 18-38), `reverser.py` (lines 18-38) and `translator.py`
(lines 84-104).  A loaded YAML mapping is modelled as an insertion-ordered
association list (as CPython dicts are ordered); scalars of arbitrary type
`α` are wrapped in `YVal.leaf`. -/

inductive YVal (α : Type) where
  | leaf (a : α)
  | node (entries : List (List Char × YVal α))

/-- The entries of a mapping node, in insertion order. -/
abbrev Entries (α : Type) := List (List Char × YVal α)

instance {α : Type} [Inhabited α] : Inhabited (YVal α) :=
  ⟨YVal.leaf default⟩

/-- Python `d.get(k)` on an insertion-ordered dict. -/
def dictGet (d : List (List Char × β)) (k : List Char) : Option β :=
  (d.find? (fun p => p.1 = k)).map (fun p => p.2)

/-- Python `d[k] = v`: replace in place when the key is present, append at
the end otherwise. -/
def dictSet (d : List (List Char × β)) (k : List Char) (v : β) :
    List (List Char × β) :=
  if d.any (fun p => p.1 = k) then
    d.map (fun p => if p.1 = k then (k, v) else p)
  else d ++ [(k, v)]

/-- Python `d.update(d2)`. -/
def dictUpdate (d d2 : List (List Char × β)) : List (List Char × β) :=
  d2.foldl (fun acc p => dictSet acc p.1 p.2) d

/-- `flatten_yaml`'s loop: `items` is the dict being built, `pfx` the
`prefix` parameter (renamed: `prefix` is reserved in Lean).  A nested
mapping contributes `items.update(flatten_yaml(v, new_key))` (the recursive
call starts from a fresh empty dict); any other value contributes
`items[new_key] = v`.  The Python `f"{prefix}.{k}" if prefix else k` tests
the truthiness of `prefix`, i.e. whether it is the empty string. -/
def flatten_yamlAux : Entries α → List Char → Entries α → Entries α
  | [], _, items => items
  | (k, v) :: rest, pfx, items =>
      let new_key := if pfx = [] then k else pfx ++ '.' :: k
      match v with
      | YVal.node sub =>
          flatten_yamlAux rest pfx
            (dictUpdate items (flatten_yamlAux sub new_key []))
      | YVal.leaf a =>
          flatten_yamlAux rest pfx (dictSet items new_key (YVal.leaf a))

/-- `flatten_yaml` (`formatter.py` lines 18-27). -/
def flatten_yaml (d : Entries α) (pfx : List Char) : Entries α :=
  flatten_yamlAux d pfx []

/-- Python `k.split(".")`: `""` splits to `[""]`, and separators at either
end produce empty segments. -/
def splitDot : List Char → List (List Char)
  | [] => [[]]
  | c :: rest =>
      if c = '.' then [] :: splitDot rest
      else
        match splitDot rest with
        | s :: ss => (c :: s) :: ss
        | [] => [[c]]

/-- The body of `unflatten_yaml`'s loop for one flat entry: walk/create the
intermediate mapping nodes named by `path` (`ref = ref.setdefault(part, {})`,
which appends a fresh empty dict when the key is absent) and assign the
final segment (`ref[keys[-1]] = v`, replacing in place).  When the walk or
the final assignment meets a scalar, Python raises
(`AttributeError`/`TypeError`); that is modelled as `none`.  The `[]` path
never arises from `split` (it would be `keys[-1]` on an empty list, an
`IndexError`), also `none`. -/
def setPath : Entries α → List (List Char) → YVal α → Option (Entries α)
  | _, [], _ => none
  | d, [k], v => some (dictSet d k v)
  | d, k :: k2 :: ks, v =>
      match dictGet d k with
      | some (YVal.node sub) =>
          (setPath sub (k2 :: ks) v).map
            (fun sub2 => dictSet d k (YVal.node sub2))
      | some (YVal.leaf _) => none
      | none =>
          (setPath [] (k2 :: ks) v).map
            (fun sub2 => d ++ [(k, YVal.node sub2)])

/-- `unflatten_yaml` (`formatter.py` lines 29-38): fold the flat dict's
entries in order through `setPath`. -/
def unflatten_yaml (d : Entries α) : Option (Entries α) :=
  d.foldlM (fun acc p => setPath acc (splitDot p.1) p.2) []

/-- A key over which the dotted-path encoding is lossless: non-empty and
separator-free. -/
def goodKey (k : List Char) : Bool := !k.isEmpty && !(k.any (fun c => c = '.'))

mutual
/-- Well-formedness for the round-trip theorem: every key of every nested
mapping is good, sibling keys are distinct (as in a Python dict), and every
nested mapping value is non-empty. -/
def wfVal : YVal α → Bool
  | .leaf _ => true
  | .node ts => !ts.isEmpty && wfEntries ts

def wfEntries : Entries α → Bool
  | [] => true
  | (k, v) :: rest =>
      goodKey k && wfVal v && !(rest.any (fun p => p.1 = k)) && wfEntries rest
end

mutual
/-- Does some key's value, anywhere in the tree, hold an empty mapping? -/
def hasEmptyNodeVal : YVal α → Bool
  | .leaf _ => false
  | .node ts => ts.isEmpty || hasEmptyNodeEntries ts

def hasEmptyNodeEntries : Entries α → Bool
  | [] => false
  | (_, v) :: rest => hasEmptyNodeVal v || hasEmptyNodeEntries rest
end

/-- Is the value a scalar leaf (Python: not a dict)? -/
def isLeafVal : YVal α → Bool
  | .leaf _ => true
  | .node _ => false

/-- The depth-first leaf paths of a tree as segment lists, paired with the
leaf values (specification-side helper for the round-trip proof). -/
def pathsOf : Entries α → List (List (List Char) × YVal α)
  | [] => []
  | (k, v) :: rest =>
      (match v with
       | YVal.node sub => (pathsOf sub).map (fun q => (k :: q.1, q.2))
       | YVal.leaf a => [([k], YVal.leaf a)]) ++ pathsOf rest

/-- Join path segments with the `.` separator (specification-side helper:
the string key `flatten_yaml` builds for a leaf reached through `segs`). -/
def joinSegs : List (List Char) → List Char
  | [] => []
  | [s] => s
  | s :: s2 :: ss => s ++ '.' :: joinSegs (s2 :: ss)

/-- Spec-side helper: `unflatten_yaml`'s fold with the paths pre-split into
segment lists. -/
def insertAll (acc : Entries α) (qs : List (List (List Char) × YVal α)) :
    Option (Entries α) :=
  qs.foldlM (fun a q => setPath a q.1 q.2) acc

/-- The dict invariant of assoc lists that model Python dicts: keys are
pairwise distinct. -/
def nodupKeys (d : List (List Char × β)) : Prop := (d.map Prod.fst).Nodup

/-! ## The translation pipeline (`src/core/translator.py`)

The external API call is the only effect; it is modelled as an oracle
`call : Nat → Option ρ` giving, per 0-based attempt index, either the
response (`some`) or a raised exception (`none`).  For the whole run the
oracle takes the 0-based batch index first.  Response texts enter the model
already split into lines (`response_text.splitlines()` sits at the I/O
boundary); numeric times and console prints are not modelled. -/

/-- The retry loop of `process_batch` (lines 249-265): up to `maxRetries`
attempts; a failed attempt that is not the last sleeps `2 ** attempt`
seconds and retries; a failed last attempt re-raises.  Returns the result
and the list of performed backoff delays, in order.  The first argument of
the recursion is the number of remaining loop iterations. -/
def retryAux (call : Nat → Option ρ) : Nat → Nat → Option ρ × List Nat
  | 0, _ => (none, [])
  | rem + 1, attempt =>
      match call attempt with
      | some r => (some r, [])
      | none =>
          if rem = 0 then (none, [])
          else
            let next := retryAux call rem (attempt + 1)
            (next.1, 2 ^ attempt :: next.2)

/-- `for attempt in range(max_retries): ...` with exponential backoff.
With `maxRetries = 0` the loop body never runs and the later use of `resp`
raises `NameError`, caught by the enclosing handler — same `none` outcome. -/
def retryCall (call : Nat → Option ρ) (maxRetries : Nat) :
    Option ρ × List Nat :=
  retryAux call maxRetries 0

/-- Python `line[0].isdigit()` guarded by the short-circuited `". " in line`
(so the empty line is never indexed). -/
def lineStartsWithDigit : PyStr → Bool
  | [] => false
  | c :: _ => c.isDigit

/-- Python `line.split(". ", 1)[1]`: the part after the first occurrence of
the separator (call sites guard that the separator occurs). -/
def afterFirstSub (needle : PyStr) : PyStr → PyStr
  | [] => []
  | c :: rest =>
      if needle.isPrefixOf (c :: rest) then (c :: rest).drop needle.length
      else afterFirstSub needle rest

/-- Python `str.strip()`: drop whitespace from both ends. -/
def pyStrip (s : PyStr) : PyStr :=
  ((s.dropWhile Char.isWhitespace).reverse.dropWhile Char.isWhitespace).reverse

/-- The tuple `("1.", "2.", "3.", "4.", "5.")` of `line.startswith`. -/
def numberedPrefixes : List PyStr :=
  ["1.".toList, "2.".toList, "3.".toList, "4.".toList, "5.".toList]

/-- One iteration of the response-parsing loop of `process_batch`
(lines 271-277): a line containing `". "` and starting with a digit is
accepted with its numeric prefix stripped; otherwise a line that is
non-blank and does not start with `"1."`..`"5."` is accepted verbatim
(stripped); every other line is skipped. -/
def parseLineStep (acc : List PyStr) (line : PyStr) : List PyStr :=
  if hasSub ". ".toList line && lineStartsWithDigit line then
    acc ++ [afterFirstSub ". ".toList line]
  else if pyStrip line ≠ [] &&
      !(numberedPrefixes.any (fun p => p.isPrefixOf line)) then
    acc ++ [pyStrip line]
  else acc

/-- `translated_batch`: the parsed items of the response lines, in order. -/
def parsedItems (lines : List PyStr) : List PyStr :=
  lines.foldl parseLineStep []

/-- The application loop of `process_batch` (lines 280-285): the `i`-th
batch item receives the `i`-th parsed translation when it exists, otherwise
its original value, with a per-key warning.  Returns the updated output
dict and the list of warned keys, in order. -/
def applyBatch (chunk : List (PyStr × PyStr)) (translated : List PyStr)
    (output : List (List Char × PyStr)) :
    List (List Char × PyStr) × List PyStr :=
  chunk.enum.foldl
    (fun st p =>
      match p with
      | (i, (key, original)) =>
          if h : i < translated.length then
            (dictSet st.1 key (translated.get ⟨i, h⟩), st.2)
          else (dictSet st.1 key original, st.2 ++ [key]))
    (output, [])

/-- Spec-side helper: the application loop started at enumeration index
`i0` with warning accumulator `ws` (`applyBatch` is the `i0 = 0`, `ws = []`
instance, since `List.enum = List.enumFrom 0`). -/
def applyBatchFrom (translated : List PyStr) (i0 : Nat)
    (chunk : List (PyStr × PyStr)) (out : List (List Char × PyStr))
    (ws : List PyStr) : List (List Char × PyStr) × List PyStr :=
  (List.enumFrom i0 chunk).foldl
    (fun st p =>
      match p with
      | (i, (key, original)) =>
          if h : i < translated.length then
            (dictSet st.1 key (translated.get ⟨i, h⟩), st.2)
          else (dictSet st.1 key original, st.2 ++ [key]))
    (out, ws)

/-- `process_batch` (lines 238-293): retry the API call; on exhaustion the
exception is caught and the batch fails with the output dict untouched; on
success parse the response and apply it.  Returns
(success flag, output dict, warned keys, backoff delays). -/
def process_batch (maxRetries : Nat) (call : Nat → Option (List PyStr))
    (chunk : List (PyStr × PyStr)) (output : List (List Char × PyStr)) :
    Bool × List (List Char × PyStr) × List PyStr × List Nat :=
  match retryCall call maxRetries with
  | (none, ds) => (false, output, [], ds)
  | (some lines, ds) =>
      let translated := parsedItems lines
      let ap := applyBatch chunk translated output
      (true, ap.1, ap.2, ds)

/-- `save_progress` (`translator.py` lines 106-110): the file written after
a batch holds `unflatten_yaml` of the flat output dict. -/
def save_progress (output_dict : List (List Char × PyStr)) :
    Option (Entries PyStr) :=
  unflatten_yaml (output_dict.map (fun p => (p.1, YVal.leaf p.2)))

/-- The run state threaded through the batch loop of `translate_yaml_file`:
the in-memory output dict, the translated-items counter, and the flat
content of the last `save_progress` write (`none` until a batch has
succeeded — the output file is only ever written after a successful
batch). -/
structure RunState where
  output : List (List Char × PyStr)
  translatedCount : Nat
  persisted : Option (List (List Char × PyStr))

/-- The batch loop of `translate_yaml_file` (lines 193-215): on success the
output dict is updated, the counter grows by the chunk size and progress is
saved; on failure the batch is reported as skipped and the loop moves on
with the state untouched. -/
def runBatchesAux (maxRetries : Nat)
    (call : Nat → Nat → Option (List PyStr)) :
    Nat → List (List (PyStr × PyStr)) → RunState → RunState
  | _, [], st => st
  | idx, chunk :: rest, st =>
      let pb := process_batch maxRetries (call idx) chunk st.output
      if pb.1 then
        runBatchesAux maxRetries call (idx + 1) rest
          { output := pb.2.1,
            translatedCount := st.translatedCount + chunk.length,
            persisted := some pb.2.1 }
      else runBatchesAux maxRetries call (idx + 1) rest st

def runBatches (maxRetries : Nat) (call : Nat → Nat → Option (List PyStr))
    (chunks : List (List (PyStr × PyStr)))
    (init : List (List Char × PyStr)) : RunState :=
  runBatchesAux maxRetries call 0 chunks
    { output := init, translatedCount := 0, persisted := none }

/-- `more_itertools.chunked(translatable_items, batch_size)`
(`translator.py` line 186): consecutive slices of length `n`, the last
possibly shorter.  Fuelled (one unit per slice suffices since each slice
consumes at least one element when `n ≥ 1`). -/
def chunkedAux (n : Nat) : Nat → List γ → List (List γ)
  | 0, _ => []
  | _ + 1, [] => []
  | fuel + 1, c :: rest => (c :: rest).take n :: chunkedAux n fuel ((c :: rest).drop n)

def chunked (l : List γ) (n : Nat) : List (List γ) :=
  chunkedAux n l.length l

/-! ## Telemetry summary (`src/utils/telemetry.py`)

Wall-clock durations are Python floats; they are modelled as exact
rationals, which keeps the one property at issue — Python float division
raises `ZeroDivisionError` on a zero divisor — while ignoring rounding. -/

/-- Python `a / b` on floats: raises `ZeroDivisionError` when `b == 0`. -/
def pyDiv (a b : ℚ) : Option ℚ := if b = 0 then none else some (a / b)

/-- The four derived figures printed by `print_final_summary`
(`telemetry.py` lines 146-149): API/file/processing percentages of the
total elapsed time and the items-per-second throughput.  `none` models an
uncaught `ZeroDivisionError` escaping the summary. -/
def print_final_summary_figures
    (total_time total_api_time total_file_time : ℚ)
    (translated_items : ℕ) : Option (ℚ × ℚ × ℚ × ℚ) := do
  let processing_time := total_time - total_api_time - total_file_time
  let apiFrac ← pyDiv total_api_time total_time
  let fileFrac ← pyDiv total_file_time total_time
  let procFrac ← pyDiv processing_time total_time
  let speed ← pyDiv (translated_items : ℚ) total_time
  pure (apiFrac * 100, fileFrac * 100, procFrac * 100, speed)

/-! ## Lemmas about the transcoders -/

theorem matchPlaceholderAt_none {c : Char} {rest : PyStr}
    (h1 : c ≠ '%') (h2 : c ≠ '{') (h3 : c ≠ '&') :
    matchPlaceholderAt (c :: rest) = none := by
  simp [matchPlaceholderAt, h1, h2, h3]

/-- A string with none of the three trigger characters has no placeholder
matches (fuelled form). -/
theorem findPlaceholdersAux_eq_nil (fuel : Nat) (y : PyStr)
    (h : ∀ c ∈ y, c ≠ '%' ∧ c ≠ '{' ∧ c ≠ '&') :
    findPlaceholdersAux fuel y = [] := by
  induction fuel generalizing y with
  | zero => rfl
  | succ n ih =>
      cases y with
      | nil => rfl
      | cons c rest =>
          obtain ⟨h1, h2, h3⟩ := h c (List.mem_cons_self c rest)
          rw [findPlaceholdersAux, matchPlaceholderAt_none h1 h2 h3]
          exact ih rest (fun c hc => h c (List.mem_cons_of_mem _ hc))

theorem findPlaceholders_eq_nil (y : PyStr)
    (h : ∀ c ∈ y, c ≠ '%' ∧ c ≠ '{' ∧ c ≠ '&') :
    findPlaceholders y = [] :=
  findPlaceholdersAux_eq_nil y.length y h

/-- With no placeholder matches, the extraction and restore loops are the
identity and `to_small_caps` is the plain per-character substitution. -/
theorem to_small_caps_of_no_placeholder {x : PyStr}
    (h : findPlaceholders x = []) :
    to_small_caps x = x.map smallCapsChar := by
  simp [to_small_caps, h, extractPlaceholders, restorePlaceholders]

theorem from_small_caps_of_no_placeholder {x : PyStr}
    (h : findPlaceholders x = []) :
    from_small_caps x = x.map reverseSmallCapsChar := by
  simp [from_small_caps, h, extractPlaceholders, restorePlaceholders]

/-- The 24 lowercase letters whose small-caps glyph is distinct from the
letter itself; `s` and `x` map to themselves in `SMALL_CAPS_MAP`. -/
def roundTripLetters : List Char :=
  ['a', 'b', 'c', 'd', 'e', 'f', 'g', 'h', 'i', 'j', 'k', 'l', 'm',
   'n', 'o', 'p', 'q', 'r', 't', 'u', 'v', 'w', 'y', 'z']

theorem roundTripLetters_spec :
    ∀ c ∈ roundTripLetters,
      reverseSmallCapsChar (smallCapsChar c) = c ∧
      smallCapsChar c ≠ '%' ∧ smallCapsChar c ≠ '{' ∧ smallCapsChar c ≠ '&' := by
  decide

theorem map_smallCaps_roundtrip (x : PyStr)
    (hall : ∀ c ∈ x, c ∈ roundTripLetters) :
    x.map (reverseSmallCapsChar ∘ smallCapsChar) = x := by
  induction x with
  | nil => rfl
  | cons c rest ih =>
      have hc := (roundTripLetters_spec c (hall c (List.mem_cons_self c rest))).1
      simp only [List.map_cons, Function.comp_apply, hc, List.cons.injEq,
        true_and]
      exact ih (fun c hcm => hall c (List.mem_cons_of_mem _ hcm))

/-! ## Claim theorems about the transcoders -/

/-- C1: the claim is refuted by the code (code bug).  On the input `"%hp%"`,
which consists of a single percent-delimited placeholder, `to_small_caps`
finds the placeholder and excises it into the sentinel `__PLACEHOLDER_0__`,
but the per-character substitution is case-insensitive
(`SMALL_CAPS_MAP.get(char.lower(), char)`) and rewrites the sentinel's
uppercase letters to small-caps glyphs, so the final
`result.replace("__PLACEHOLDER_0__", "%hp%")` finds nothing: the output is
`"__ᴘʟᴀᴄᴇʜᴏʟᴅᴇʀ_0__"` and the placeholder's character sequence does not
appear in it at all.  The last conjunct isolates the broken step: the
sentinel's characters do not pass through the substitution unchanged. -/
theorem to_small_caps_destroys_percent_placeholder :
    findPlaceholders "%hp%".toList = ["%hp%".toList] ∧
    to_small_caps "%hp%".toList = "__ᴘʟᴀᴄᴇʜᴏʟᴅᴇʀ_0__".toList ∧
    hasSub "%hp%".toList (to_small_caps "%hp%".toList) = false ∧
    (sentinel 0).map smallCapsChar ≠ sentinel 0 := by
  decide

/-- C2: the claim is refuted by the code (code bug).  The placeholder pattern
`(%[^%]*%|\x7b[^\x7d]*\x7d|&[a-zA-Z0-9])` has no angle-bracket alternative, so
`<...>` tag spans are not protected: on the claim's own example input the
code small-caps the letters inside both tags, instead of the expected output
`"<shift:-8><glyph:skills_gui>ʜᴇʟʟᴏ"` asserted by the claim and by the
repository's `test_all_tags.py`. -/
theorem to_small_caps_transcodes_angle_tag_spans :
    to_small_caps "<shift:-8><glyph:skills_gui>hello".toList =
      "<sʜɪꜰᴛ:-8><ɢʟʏᴘʜ:sᴋɪʟʟs_ɢᴜɪ>ʜᴇʟʟᴏ".toList ∧
    to_small_caps "<shift:-8><glyph:skills_gui>hello".toList ≠
      "<shift:-8><glyph:skills_gui>ʜᴇʟʟᴏ".toList ∧
    hasSub "<shift:-8>".toList
      (to_small_caps "<shift:-8><glyph:skills_gui>hello".toList) = false := by
  decide

/-- C9: confirmed.  For a string with zero placeholder matches,
`to_small_caps` is exactly the per-character table substitution (mapped
letters substituted, all other characters unchanged), and for inputs drawn
from the 24 letters whose small-caps glyph round-trips through
`REVERSE_SMALL_CAPS_MAP`, `from_small_caps ∘ to_small_caps` is the
identity. -/
theorem to_small_caps_no_placeholder_subst_and_roundtrip (x : PyStr)
    (h : findPlaceholders x = []) :
    to_small_caps x = x.map smallCapsChar ∧
    ((∀ c ∈ x, c ∈ roundTripLetters) →
      from_small_caps (to_small_caps x) = x) := by
  refine ⟨to_small_caps_of_no_placeholder h, fun hall => ?_⟩
  rw [to_small_caps_of_no_placeholder h]
  have h2 : findPlaceholders (x.map smallCapsChar) = [] := by
    refine findPlaceholders_eq_nil _ (fun c hc => ?_)
    obtain ⟨c0, hc0, rfl⟩ := List.mem_map.mp hc
    exact (roundTripLetters_spec c0 (hall c0 hc0)).2
  rw [from_small_caps_of_no_placeholder h2, List.map_map]
  exact map_smallCaps_roundtrip x hall

/-- C9 witness: the theorem applied to the concrete placeholder-free input
`"hello"`. -/
theorem to_small_caps_no_placeholder_subst_and_roundtrip_witness :
    (findPlaceholders "hello".toList = [] ∧
      (∀ c ∈ "hello".toList, c ∈ roundTripLetters)) ∧
    to_small_caps "hello".toList = "hello".toList.map smallCapsChar ∧
    from_small_caps (to_small_caps "hello".toList) = "hello".toList := by
  have h1 : findPlaceholders "hello".toList = [] := by decide
  have h2 : ∀ c ∈ "hello".toList, c ∈ roundTripLetters := by decide
  have main := to_small_caps_no_placeholder_subst_and_roundtrip
    "hello".toList h1
  exact ⟨⟨h1, h2⟩, main.1, main.2 h2⟩

/-! ## Dict lemmas -/

theorem mem_keys_iff_any {β} (d : List (List Char × β)) (k : List Char) :
    (d.any (fun p => p.1 = k) = true) ↔ k ∈ d.map Prod.fst := by
  rw [List.any_eq_true, List.mem_map]
  constructor
  · rintro ⟨p, hp, he⟩
    exact ⟨p, hp, by simpa using he⟩
  · rintro ⟨p, hp, he⟩
    exact ⟨p, hp, by simpa using he⟩

theorem dictSet_eq_map_of_mem {β} {d : List (List Char × β)} {k : List Char}
    (h : k ∈ d.map Prod.fst) (v : β) :
    dictSet d k v = d.map (fun p => if p.1 = k then (k, v) else p) := by
  have h' : d.any (fun p => p.1 = k) = true := (mem_keys_iff_any d k).mpr h
  simp [dictSet, h']

theorem dictSet_of_not_mem {β} {d : List (List Char × β)} {k : List Char}
    (h : k ∉ d.map Prod.fst) (v : β) :
    dictSet d k v = d ++ [(k, v)] := by
  have h' : d.any (fun p => p.1 = k) = false := by
    cases hb : d.any (fun p => p.1 = k)
    · rfl
    · exact absurd ((mem_keys_iff_any d k).mp hb) h
  simp [dictSet, h']

theorem dictGet_nil {β} (k : List Char) :
    dictGet ([] : List (List Char × β)) k = none := rfl

theorem dictGet_cons {β} (k' k : List Char) (v : β) (d) :
    dictGet ((k', v) :: d) k = if k' = k then some v else dictGet d k := by
  unfold dictGet
  by_cases h : k' = k
  · rw [List.find?_cons_of_pos _ (by simpa using h), if_pos h]
    rfl
  · rw [List.find?_cons_of_neg _ (by simpa using h), if_neg h]

theorem dictGet_append {β} (d e : List (List Char × β)) (k : List Char) :
    dictGet (d ++ e) k = (dictGet d k).or (dictGet e k) := by
  unfold dictGet
  rw [List.find?_append]
  cases List.find? (fun p => decide (p.1 = k)) d <;> rfl

theorem dictGet_eq_none_iff {β} (d : List (List Char × β)) (k : List Char) :
    dictGet d k = none ↔ k ∉ d.map Prod.fst := by
  induction d with
  | nil => simp [dictGet_nil]
  | cons p d ih =>
      rcases p with ⟨k', v⟩
      rw [dictGet_cons]
      by_cases h : k' = k
      · subst h
        refine iff_of_false (by simp) (fun hn => hn ?_)
        rw [List.map_cons]
        exact List.mem_cons_self _ _
      · rw [if_neg h]
        simp only [List.map_cons, List.mem_cons, not_or]
        rw [ih]
        exact ⟨fun hn => ⟨fun he => h he.symm, hn⟩, fun hp => hp.2⟩

theorem dictGet_append_fresh {β} {d : List (List Char × β)} {k : List Char}
    (h : k ∉ d.map Prod.fst) (v : β) :
    dictGet (d ++ [(k, v)]) k = some v := by
  rw [dictGet_append, (dictGet_eq_none_iff d k).mpr h, dictGet_cons,
    if_pos rfl]
  rfl

theorem dictSet_nil {β} (k : List Char) (v : β) :
    dictSet [] k v = [(k, v)] := by simp [dictSet]

theorem dictSet_cons_ne {β} {k' k : List Char} (h : k' ≠ k) (v' v : β) (d) :
    dictSet ((k', v') :: d) k v = (k', v') :: dictSet d k v := by
  by_cases hm : k ∈ d.map Prod.fst
  · have hm2 : k ∈ ((k', v') :: d).map Prod.fst :=
      List.map_cons _ _ _ ▸ List.mem_cons_of_mem _ hm
    rw [dictSet_eq_map_of_mem hm2, dictSet_eq_map_of_mem hm, List.map_cons,
      if_neg h]
  · have hm2 : k ∉ ((k', v') :: d).map Prod.fst := by
      simp only [List.map_cons, List.mem_cons, not_or]
      exact ⟨fun he => h he.symm, hm⟩
    rw [dictSet_of_not_mem hm2, dictSet_of_not_mem hm, List.cons_append]

theorem dictSet_cons_self {β} {k : List Char} {d : List (List Char × β)}
    (h : ∀ p ∈ d, p.1 ≠ k) (v' v : β) :
    dictSet ((k, v') :: d) k v = (k, v) :: d := by
  have hm : k ∈ ((k, v') :: d).map Prod.fst :=
    List.mem_map_of_mem Prod.fst (List.mem_cons_self _ _)
  rw [dictSet_eq_map_of_mem hm, List.map_cons, if_pos rfl]
  have hmap : d.map (fun p => if p.1 = k then (k, v) else p) = d := by
    have := List.map_congr_left (l := d)
      (f := fun p => if p.1 = k then (k, v) else p) (g := id)
      (fun p hp => by simp [h p hp])
    simpa using this
  rw [hmap]

theorem dictGet_dictSet_self {β} (d : List (List Char × β)) (k : List Char)
    (v : β) : dictGet (dictSet d k v) k = some v := by
  induction d with
  | nil => rw [dictSet_nil, dictGet_cons, if_pos rfl]
  | cons p d ih =>
      rcases p with ⟨k', v'⟩
      by_cases h : k' = k
      · subst h
        have hm : k' ∈ ((k', v') :: d).map Prod.fst :=
          List.mem_map_of_mem Prod.fst (List.mem_cons_self _ _)
        rw [dictSet_eq_map_of_mem hm, List.map_cons, if_pos rfl,
          dictGet_cons, if_pos rfl]
      · rw [dictSet_cons_ne h, dictGet_cons, if_neg h, ih]

theorem dictGet_dictSet_ne {β} {k k2 : List Char} (h : k2 ≠ k)
    (d : List (List Char × β)) (v : β) :
    dictGet (dictSet d k v) k2 = dictGet d k2 := by
  induction d with
  | nil =>
      rw [dictSet_nil, dictGet_cons, if_neg (fun he => h he.symm), dictGet_nil]
  | cons p d ih =>
      rcases p with ⟨k', v'⟩
      by_cases hk : k' = k
      · subst hk
        have hm : k' ∈ ((k', v') :: d).map Prod.fst :=
          List.mem_map_of_mem Prod.fst (List.mem_cons_self _ _)
        rw [dictSet_eq_map_of_mem hm, List.map_cons, if_pos rfl,
          dictGet_cons, dictGet_cons, if_neg (fun he => h he.symm),
          if_neg (fun he => h he.symm)]
        have hm2 : d.map (fun p => if p.1 = k' then (k', v) else p) =
            dictSet d k' v ∨ k' ∉ d.map Prod.fst := by
          by_cases hd : k' ∈ d.map Prod.fst
          · exact Or.inl (dictSet_eq_map_of_mem hd v).symm
          · exact Or.inr hd
        rcases hm2 with h2 | h2
        · rw [h2, ih]
        · have hmap : d.map (fun p => if p.1 = k' then (k', v) else p) = d := by
            have := List.map_congr_left (l := d)
              (f := fun p => if p.1 = k' then (k', v) else p) (g := id)
              (fun p hp => by
                have : p.1 ≠ k' := fun he =>
                  h2 (he ▸ List.mem_map_of_mem Prod.fst hp)
                simp [this])
            simpa using this
          rw [hmap]
      · rw [dictSet_cons_ne hk, dictGet_cons, dictGet_cons, ih]

theorem nodupKeys_nil {β} : nodupKeys ([] : List (List Char × β)) := by
  simp [nodupKeys]

theorem nodupKeys_cons_iff {β} (k : List Char) (v : β) (d) :
    nodupKeys ((k, v) :: d) ↔ k ∉ d.map Prod.fst ∧ nodupKeys d := by
  unfold nodupKeys
  rw [List.map_cons, List.nodup_cons]

theorem keys_dictSet_of_mem {β} {k : List Char} {d : List (List Char × β)}
    (h : k ∈ d.map Prod.fst) (v : β) :
    (dictSet d k v).map Prod.fst = d.map Prod.fst := by
  rw [dictSet_eq_map_of_mem h, List.map_map]
  exact List.map_congr_left (fun p _ => by
    by_cases hpk : p.1 = k <;> simp [hpk])

theorem keys_dictSet_of_not_mem {β} {k : List Char} {d : List (List Char × β)}
    (h : k ∉ d.map Prod.fst) (v : β) :
    (dictSet d k v).map Prod.fst = d.map Prod.fst ++ [k] := by
  rw [dictSet_of_not_mem h, List.map_append]
  rfl

theorem nodupKeys_dictSet {β} {k : List Char} {d : List (List Char × β)}
    (h : nodupKeys d) (v : β) : nodupKeys (dictSet d k v) := by
  by_cases hm : k ∈ d.map Prod.fst
  · unfold nodupKeys
    rw [keys_dictSet_of_mem hm]
    exact h
  · unfold nodupKeys
    rw [keys_dictSet_of_not_mem hm]
    rw [List.nodup_append]
    exact ⟨h, List.nodup_singleton k,
      fun a ha hb => hm ((List.mem_singleton.mp hb) ▸ ha)⟩

theorem dictSet_dictSet {β} {d : List (List Char × β)} (hnd : nodupKeys d)
    (k : List Char) (v w : β) :
    dictSet (dictSet d k v) k w = dictSet d k w := by
  induction d with
  | nil =>
      rw [dictSet_nil, dictSet_cons_self (by simp) v w, dictSet_nil]
  | cons p d ih =>
      rcases p with ⟨k', v'⟩
      rw [nodupKeys_cons_iff] at hnd
      by_cases h : k' = k
      · subst h
        have hfresh : ∀ p ∈ d, p.1 ≠ k' := fun p hp he =>
          hnd.1 (he ▸ List.mem_map_of_mem Prod.fst hp)
        rw [dictSet_cons_self hfresh, dictSet_cons_self hfresh,
          dictSet_cons_self hfresh]
      · rw [dictSet_cons_ne h, dictSet_cons_ne h, dictSet_cons_ne h,
          ih hnd.2]

theorem dictSet_of_get_self {β} {d : List (List Char × β)} {k : List Char}
    {v : β} (hnd : nodupKeys d) (h : dictGet d k = some v) :
    dictSet d k v = d := by
  induction d with
  | nil => simp [dictGet_nil] at h
  | cons p d ih =>
      rcases p with ⟨k', v'⟩
      rw [dictGet_cons] at h
      rw [nodupKeys_cons_iff] at hnd
      by_cases hk : k' = k
      · rw [if_pos hk] at h
        injection h with h
        subst hk
        subst h
        have hfresh : ∀ p ∈ d, p.1 ≠ k' := fun p hp he =>
          hnd.1 (he ▸ List.mem_map_of_mem Prod.fst hp)
        rw [dictSet_cons_self hfresh]
      · rw [if_neg hk] at h
        rw [dictSet_cons_ne hk, ih hnd.2 h]

theorem dictSet_append_last {β} {d : List (List Char × β)} {k : List Char}
    (h : k ∉ d.map Prod.fst) (hnd : nodupKeys d) (v w : β) :
    dictSet (d ++ [(k, v)]) k w = d ++ [(k, w)] := by
  have h1 := dictSet_of_not_mem h v
  have hnd2 : nodupKeys (d ++ [(k, v)]) := by
    rw [← h1]
    exact nodupKeys_dictSet hnd v
  rw [← h1, dictSet_dictSet hnd k v w, dictSet_of_not_mem h w]

theorem dictUpdate_nil_right {β} (d : List (List Char × β)) :
    dictUpdate d [] = d := rfl

theorem dictUpdate_cons {β} (d : List (List Char × β)) (p) (ps) :
    dictUpdate d (p :: ps) = dictUpdate (dictSet d p.1 p.2) ps := rfl

theorem dictUpdate_eq_append {β} :
    ∀ {e d : List (List Char × β)},
      nodupKeys e → (∀ k ∈ e.map Prod.fst, k ∉ d.map Prod.fst) →
      dictUpdate d e = d ++ e := by
  intro e
  induction e with
  | nil => intro d _ _; simp [dictUpdate]
  | cons p ps ih =>
      intro d hnd hdisj
      rcases p with ⟨k, v⟩
      rw [nodupKeys_cons_iff] at hnd
      rw [dictUpdate_cons]
      have hk : k ∉ d.map Prod.fst :=
        hdisj k (List.mem_map_of_mem Prod.fst (List.mem_cons_self _ _))
      rw [dictSet_of_not_mem hk v, ih hnd.2 ?_, List.append_assoc,
        List.singleton_append]
      intro k2 hk2
      rw [List.map_append]
      simp only [List.mem_append]
      rintro (h2 | h2)
      · exact hdisj k2 (List.map_cons _ _ _ ▸ List.mem_cons_of_mem _ hk2) h2
      · simp only [List.map_cons, List.map_nil, List.mem_singleton] at h2
        subst h2
        exact hnd.1 hk2



/-! ## `splitDot` / `joinSegs` lemmas -/

theorem splitDot_no_dot {s : List Char} (h : '.' ∉ s) : splitDot s = [s] := by
  induction s with
  | nil => rfl
  | cons c rest ih =>
      have hc : c ≠ '.' := fun he => h (he ▸ List.mem_cons_self c rest)
      have hr : '.' ∉ rest := fun hm => h (List.mem_cons_of_mem c hm)
      simp only [splitDot, if_neg hc, ih hr]

theorem splitDot_append_dot {s : List Char} (h : '.' ∉ s) (t : List Char) :
    splitDot (s ++ '.' :: t) = s :: splitDot t := by
  induction s with
  | nil => simp only [List.nil_append, splitDot, if_pos rfl, if_true]
  | cons c rest ih =>
      have hc : c ≠ '.' := fun he => h (he ▸ List.mem_cons_self c rest)
      have hr : '.' ∉ rest := fun hm => h (List.mem_cons_of_mem c hm)
      simp only [List.cons_append, splitDot, if_neg hc, List.append_eq, ih hr]

theorem joinSegs_cons_cons (s s2 : List Char) (ss : List (List Char)) :
    joinSegs (s :: s2 :: ss) = s ++ '.' :: joinSegs (s2 :: ss) := rfl

theorem splitDot_joinSegs :
    ∀ {segs : List (List Char)}, segs ≠ [] → (∀ s ∈ segs, '.' ∉ s) →
      splitDot (joinSegs segs) = segs := by
  intro segs
  induction segs with
  | nil => intro h; exact absurd rfl h
  | cons s rest ih =>
      intro _ hd
      cases rest with
      | nil => exact splitDot_no_dot (hd s (List.mem_cons_self s []))
      | cons s2 ss =>
          rw [joinSegs_cons_cons,
            splitDot_append_dot (hd s (List.mem_cons_self _ _)),
            ih (by simp) (fun s' hs' => hd s' (List.mem_cons_of_mem _ hs'))]

theorem joinSegs_ne_nil :
    ∀ {segs : List (List Char)}, segs ≠ [] → (∀ s ∈ segs, s ≠ []) →
      joinSegs segs ≠ [] := by
  intro segs
  match segs with
  | [] => intro h; exact absurd rfl h
  | [s] => intro _ hne; exact hne s (List.mem_cons_self _ _)
  | s :: s2 :: ss =>
      intro _ hne
      rw [joinSegs_cons_cons]
      intro he
      rcases List.append_eq_nil.mp he with ⟨_, h2⟩
      exact List.cons_ne_nil _ _ h2

theorem joinSegs_append_last :
    ∀ {segs : List (List Char)}, segs ≠ [] → ∀ (k : List Char),
      joinSegs (segs ++ [k]) = joinSegs segs ++ '.' :: k := by
  intro segs
  induction segs with
  | nil => intro h; exact absurd rfl h
  | cons s rest ih =>
      intro _ k
      cases rest with
      | nil => rfl
      | cons s2 ss =>
          have hstep : (s :: s2 :: ss) ++ [k] = s :: ((s2 :: ss) ++ [k]) := rfl
          rw [hstep, List.cons_append, joinSegs_cons_cons,
            ← List.cons_append, ih (by simp) k, joinSegs_cons_cons,
            List.append_assoc]
          rfl

theorem joinSegs_inj {p1 p2 : List (List Char)} (h1 : p1 ≠ []) (h2 : p2 ≠ [])
    (hd1 : ∀ s ∈ p1, '.' ∉ s) (hd2 : ∀ s ∈ p2, '.' ∉ s)
    (he : joinSegs p1 = joinSegs p2) : p1 = p2 := by
  have hs := splitDot_joinSegs h1 hd1
  rw [he, splitDot_joinSegs h2 hd2] at hs
  exact hs.symm

/-- The `new_key` computed by `flatten_yamlAux` at prefix `joinSegs pfx` is
the join of the extended segment list. -/
theorem new_key_joinSegs (pfx : List (List Char)) (k : List Char)
    (hne : ∀ s ∈ pfx, s ≠ []) :
    (if joinSegs pfx = [] then k else joinSegs pfx ++ '.' :: k) =
      joinSegs (pfx ++ [k]) := by
  cases pfx with
  | nil => rfl
  | cons s rest =>
      have hnn : joinSegs (s :: rest) ≠ [] := joinSegs_ne_nil (by simp) hne
      rw [if_neg hnn, joinSegs_append_last (by simp) k]

/-! ## Strong induction on entry lists -/

theorem entries_strongInduction {α : Type} {P : Entries α → Prop}
    (step : ∀ ts, (∀ ts', sizeOf ts' < sizeOf ts → P ts') → P ts) :
    ∀ ts, P ts := by
  intro ts
  generalize hn : sizeOf ts = n
  induction n using Nat.strongRecOn generalizing ts with
  | _ n IH => exact step ts (fun ts' hlt => IH _ (hn ▸ hlt) ts' rfl)

theorem sizeOf_rest_lt {α : Type} (k : List Char) (v : YVal α)
    (rest : Entries α) : sizeOf rest < sizeOf ((k, v) :: rest) := by
  simp only [List.cons.sizeOf_spec, Prod.mk.sizeOf_spec]
  omega

theorem sizeOf_sub_lt {α : Type} (k : List Char) (sub rest : Entries α) :
    sizeOf sub < sizeOf ((k, YVal.node sub) :: rest) := by
  simp only [List.cons.sizeOf_spec, Prod.mk.sizeOf_spec, YVal.node.sizeOf_spec]
  omega

/-! ## Well-formedness and `pathsOf` lemmas -/

theorem wfEntries_nil {α : Type} : wfEntries ([] : Entries α) = true := by
  simp [wfEntries]

theorem wfEntries_cons_iff {α : Type} (k : List Char) (v : YVal α)
    (rest : Entries α) :
    wfEntries ((k, v) :: rest) = true ↔
      goodKey k = true ∧ wfVal v = true ∧ (∀ p ∈ rest, p.1 ≠ k) ∧
        wfEntries rest = true := by
  simp only [wfEntries, Bool.and_eq_true, Bool.not_eq_true',
    List.any_eq_false, decide_eq_true_eq]
  tauto

theorem wfVal_leaf {α : Type} (a : α) : wfVal (YVal.leaf a) = true := by
  simp [wfVal]

theorem wfVal_node_iff {α : Type} (ts : Entries α) :
    wfVal (YVal.node ts) = true ↔ ts ≠ [] ∧ wfEntries ts = true := by
  simp only [wfVal, Bool.and_eq_true, Bool.not_eq_true',
    List.isEmpty_eq_false_iff_exists_mem]
  constructor
  · rintro ⟨⟨x, hx⟩, hwf⟩
    exact ⟨List.ne_nil_of_mem hx, hwf⟩
  · rintro ⟨hne, hwf⟩
    rcases List.exists_mem_of_ne_nil _ hne with ⟨x, hx⟩
    exact ⟨⟨x, hx⟩, hwf⟩

theorem pathsOf_nil {α : Type} : pathsOf ([] : Entries α) = [] := by
  simp [pathsOf]

theorem pathsOf_cons_leaf {α : Type} (k : List Char) (a : α)
    (rest : Entries α) :
    pathsOf ((k, YVal.leaf a) :: rest) =
      ([k], YVal.leaf a) :: pathsOf rest := by
  simp [pathsOf]

theorem pathsOf_cons_node {α : Type} (k : List Char) (sub rest : Entries α) :
    pathsOf ((k, YVal.node sub) :: rest) =
      (pathsOf sub).map (fun q => (k :: q.1, q.2)) ++ pathsOf rest := by
  simp [pathsOf]

theorem pathsOf_wf {α : Type} :
    ∀ ts : Entries α, wfEntries ts = true →
      ∀ q ∈ pathsOf ts, q.1 ≠ [] ∧ ∀ s ∈ q.1, goodKey s = true := by
  refine entries_strongInduction (fun ts IH hwf q hq => ?_)
  cases ts with
  | nil => rw [pathsOf_nil] at hq; cases hq
  | cons p rest =>
      rcases p with ⟨k, v⟩
      rw [wfEntries_cons_iff] at hwf
      obtain ⟨hk, hv, _hnd, hrest⟩ := hwf
      cases v with
      | leaf a =>
          rw [pathsOf_cons_leaf] at hq
          rcases List.mem_cons.mp hq with rfl | hq'
          · refine ⟨List.cons_ne_nil _ _, fun s hs => ?_⟩
            rcases List.mem_singleton.mp hs with rfl
            exact hk
          · exact IH rest (sizeOf_rest_lt _ _ _) hrest q hq'
      | node sub =>
          rw [pathsOf_cons_node] at hq
          rcases List.mem_append.mp hq with hq' | hq'
          · obtain ⟨q0, hq0, rfl⟩ := List.mem_map.mp hq'
            have hsub := (wfVal_node_iff sub).mp hv
            have h0 := IH sub (sizeOf_sub_lt _ _ _) hsub.2 q0 hq0
            refine ⟨List.cons_ne_nil _ _, fun s hs => ?_⟩
            rcases List.mem_cons.mp hs with rfl | hs'
            · exact hk
            · exact h0.2 s hs'
          · exact IH rest (sizeOf_rest_lt _ _ _) hrest q hq'

theorem pathsOf_head_mem {α : Type} :
    ∀ ts : Entries α, ∀ q ∈ pathsOf ts,
      ∃ k p', q.1 = k :: p' ∧ k ∈ ts.map Prod.fst := by
  intro ts
  induction ts with
  | nil => intro q hq; rw [pathsOf_nil] at hq; cases hq
  | cons p rest ih =>
      rcases p with ⟨k, v⟩
      intro q hq
      cases v with
      | leaf a =>
          rw [pathsOf_cons_leaf] at hq
          rcases List.mem_cons.mp hq with rfl | hq'
          · exact ⟨k, [], rfl,
              List.mem_map_of_mem Prod.fst (List.mem_cons_self _ _)⟩
          · obtain ⟨k', p', he, hm⟩ := ih q hq'
            exact ⟨k', p', he, List.map_cons _ _ _ ▸ List.mem_cons_of_mem _ hm⟩
      | node sub =>
          rw [pathsOf_cons_node] at hq
          rcases List.mem_append.mp hq with hq' | hq'
          · obtain ⟨q0, _, rfl⟩ := List.mem_map.mp hq'
            exact ⟨k, q0.1, rfl,
              List.mem_map_of_mem Prod.fst (List.mem_cons_self _ _)⟩
          · obtain ⟨k', p', he, hm⟩ := ih q hq'
            exact ⟨k', p', he, List.map_cons _ _ _ ▸ List.mem_cons_of_mem _ hm⟩

theorem pathsOf_ne_nil {α : Type} :
    ∀ ts : Entries α, ts ≠ [] → wfEntries ts = true → pathsOf ts ≠ [] := by
  refine entries_strongInduction (fun ts IH hne hwf => ?_)
  cases ts with
  | nil => exact absurd rfl hne
  | cons p rest =>
      rcases p with ⟨k, v⟩
      rw [wfEntries_cons_iff] at hwf
      obtain ⟨_, hv, _, _⟩ := hwf
      cases v with
      | leaf a => rw [pathsOf_cons_leaf]; exact List.cons_ne_nil _ _
      | node sub =>
          rw [pathsOf_cons_node]
          have hsub := (wfVal_node_iff sub).mp hv
          have h0 := IH sub (sizeOf_sub_lt _ _ _) hsub.1 hsub.2
          intro he
          rcases List.append_eq_nil.mp he with ⟨h1, _⟩
          exact h0 (List.map_eq_nil_iff.mp h1)

theorem pathsOf_nodup {α : Type} :
    ∀ ts : Entries α, wfEntries ts = true →
      ((pathsOf ts).map (fun q => q.1)).Nodup := by
  refine entries_strongInduction (fun ts IH hwf => ?_)
  cases ts with
  | nil => rw [pathsOf_nil]; exact List.nodup_nil
  | cons p rest =>
      rcases p with ⟨k, v⟩
      rw [wfEntries_cons_iff] at hwf
      obtain ⟨_hk, hv, hnd, hrest⟩ := hwf
      cases v with
      | leaf a =>
          rw [pathsOf_cons_leaf, List.map_cons, List.nodup_cons]
          refine ⟨fun hmem => ?_, IH rest (sizeOf_rest_lt _ _ _) hrest⟩
          obtain ⟨q, hq, he⟩ := List.mem_map.mp hmem
          obtain ⟨k', p', he2, hm⟩ := pathsOf_head_mem rest q hq
          rw [he2] at he
          injection he with he3 _
          obtain ⟨p0, hp0, hpk⟩ := List.mem_map.mp hm
          exact hnd p0 hp0 (hpk.trans he3)
      | node sub =>
          rw [pathsOf_cons_node, List.map_append, List.nodup_append]
          have hsub := (wfVal_node_iff sub).mp hv
          refine ⟨?_, IH rest (sizeOf_rest_lt _ _ _) hrest, ?_⟩
          · rw [List.map_map]
            have heq : ((fun q => q.1) ∘ fun q : List (List Char) × YVal α =>
                ((k :: q.1 : List (List Char)), q.2)) =
                (fun p => k :: p) ∘ (fun q => q.1) := rfl
            rw [heq, ← List.map_map]
            refine List.Nodup.map ?_ (IH sub (sizeOf_sub_lt _ _ _) hsub.2)
            intro a b hab
            injection hab
          · intro x hx hx2
            rw [List.map_map] at hx
            obtain ⟨q0, _, hxe⟩ := List.mem_map.mp hx
            obtain ⟨q, hq, he⟩ := List.mem_map.mp hx2
            obtain ⟨k', p', he2, hm⟩ := pathsOf_head_mem rest q hq
            rw [he2] at he
            have h3 : k' :: p' = k :: q0.1 := by rw [he, ← hxe]; rfl
            injection h3 with h4 _
            obtain ⟨p0, hp0, hpk⟩ := List.mem_map.mp hm
            exact hnd p0 hp0 (hpk.trans h4)

/-! ## `flatten_yaml` in terms of `pathsOf` -/

theorem goodKey_iff (k : List Char) : goodKey k = true ↔ k ≠ [] ∧ '.' ∉ k := by
  unfold goodKey
  rw [Bool.and_eq_true, Bool.not_eq_true', Bool.not_eq_true',
    List.any_eq_false]
  constructor
  · rintro ⟨h1, h2⟩
    refine ⟨fun he => ?_, fun hm => by simpa using h2 '.' hm⟩
    subst he
    simp at h1
  · rintro ⟨h1, h2⟩
    refine ⟨?_, fun c hc => ?_⟩
    · cases k with
      | nil => exact absurd rfl h1
      | cons c rest => rfl
    · simp only [decide_eq_true_eq]
      intro he
      subst he
      exact h2 hc

theorem goodKey_ne_nil {k : List Char} (h : goodKey k = true) : k ≠ [] :=
  ((goodKey_iff k).mp h).1

theorem goodKey_no_dot {k : List Char} (h : goodKey k = true) : '.' ∉ k :=
  ((goodKey_iff k).mp h).2

/-- Two emitted dotted keys over the same good prefix agree only when the
leaf paths agree. -/
theorem emitted_key_inj (pfx : List (List Char))
    (hpfx : ∀ s ∈ pfx, goodKey s = true)
    {p1 p2 : List (List Char)} (h1 : p1 ≠ []) (h2 : p2 ≠ [])
    (g1 : ∀ s ∈ p1, goodKey s = true) (g2 : ∀ s ∈ p2, goodKey s = true)
    (he : joinSegs (pfx ++ p1) = joinSegs (pfx ++ p2)) : p1 = p2 := by
  have hne1 : pfx ++ p1 ≠ [] := fun hc => h1 (List.append_eq_nil.mp hc).2
  have hne2 : pfx ++ p2 ≠ [] := fun hc => h2 (List.append_eq_nil.mp hc).2
  have hd1 : ∀ s ∈ pfx ++ p1, '.' ∉ s := fun s hs => by
    rcases List.mem_append.mp hs with hs' | hs'
    · exact goodKey_no_dot (hpfx s hs')
    · exact goodKey_no_dot (g1 s hs')
  have hd2 : ∀ s ∈ pfx ++ p2, '.' ∉ s := fun s hs => by
    rcases List.mem_append.mp hs with hs' | hs'
    · exact goodKey_no_dot (hpfx s hs')
    · exact goodKey_no_dot (g2 s hs')
  exact List.append_cancel_left (joinSegs_inj hne1 hne2 hd1 hd2 he)

/-- Under distinct sibling keys, no leaf path of `rest` starts with `k`. -/
theorem pathsOf_first_ne {α : Type} {rest : Entries α} {k : List Char}
    (hnd : ∀ p ∈ rest, p.1 ≠ k) :
    ∀ q ∈ pathsOf rest, ∀ p', q.1 ≠ k :: p' := by
  intro q hq p' he
  obtain ⟨k', p'', he2, hm⟩ := pathsOf_head_mem rest q hq
  rw [he2] at he
  injection he with h1 _
  obtain ⟨p0, hp0, hpk⟩ := List.mem_map.mp hm
  exact hnd p0 hp0 (hpk.trans h1)

theorem flatten_yamlAux_nil {α : Type} (pfx : List Char) (items : Entries α) :
    flatten_yamlAux [] pfx items = items := by
  simp [flatten_yamlAux]

theorem flatten_yamlAux_cons_leaf {α : Type} (k : List Char) (a : α)
    (rest : Entries α) (pfx : List Char) (items : Entries α) :
    flatten_yamlAux ((k, YVal.leaf a) :: rest) pfx items =
      flatten_yamlAux rest pfx
        (dictSet items (if pfx = [] then k else pfx ++ '.' :: k)
          (YVal.leaf a)) := by
  simp [flatten_yamlAux]

theorem flatten_yamlAux_cons_node {α : Type} (k : List Char)
    (sub rest : Entries α) (pfx : List Char) (items : Entries α) :
    flatten_yamlAux ((k, YVal.node sub) :: rest) pfx items =
      flatten_yamlAux rest pfx
        (dictUpdate items
          (flatten_yamlAux sub (if pfx = [] then k else pfx ++ '.' :: k)
            [])) := by
  simp [flatten_yamlAux]

/-- Structure of `flatten_yamlAux` on a well-formed tree: with all emitted
keys fresh for `items`, the fold appends exactly the depth-first leaf list,
each leaf keyed by the dot-join of its segment path. -/
theorem flatten_yamlAux_eq {α : Type} :
    ∀ ts : Entries α, wfEntries ts = true →
      ∀ (pfx : List (List Char)) (items : Entries α),
        (∀ s ∈ pfx, goodKey s = true) →
        (∀ q ∈ pathsOf ts, joinSegs (pfx ++ q.1) ∉ items.map Prod.fst) →
        flatten_yamlAux ts (joinSegs pfx) items =
          items ++ (pathsOf ts).map (fun q => (joinSegs (pfx ++ q.1), q.2)) := by
  refine entries_strongInduction (fun ts IH hwf pfx items hpfx hfresh => ?_)
  cases ts with
  | nil => rw [flatten_yamlAux_nil, pathsOf_nil, List.map_nil, List.append_nil]
  | cons p rest =>
      rcases p with ⟨k, v⟩
      rw [wfEntries_cons_iff] at hwf
      obtain ⟨hk, hv, hnd, hrest⟩ := hwf
      have hpfxne : ∀ s ∈ pfx, s ≠ [] := fun s hs => goodKey_ne_nil (hpfx s hs)
      have hrestwf := pathsOf_wf rest hrest
      cases v with
      | leaf a =>
          rw [flatten_yamlAux_cons_leaf, new_key_joinSegs pfx k hpfxne]
          have hq0 : (([k], YVal.leaf a) :
              List (List Char) × YVal α) ∈ pathsOf ((k, YVal.leaf a) :: rest) := by
            rw [pathsOf_cons_leaf]
            exact List.mem_cons_self _ _
          have hfresh0 : joinSegs (pfx ++ [k]) ∉ items.map Prod.fst :=
            hfresh _ hq0
          rw [dictSet_of_not_mem hfresh0]
          have hfresh2 : ∀ q ∈ pathsOf rest, joinSegs (pfx ++ q.1) ∉
              (items ++ [(joinSegs (pfx ++ [k]), YVal.leaf a)]).map Prod.fst := by
            intro q hq
            rw [List.map_append, List.mem_append]
            rintro (hmem | hmem)
            · exact hfresh q
                (by rw [pathsOf_cons_leaf]; exact List.mem_cons_of_mem _ hq) hmem
            · simp only [List.map_cons, List.map_nil, List.mem_singleton] at hmem
              have hwq := hrestwf q hq
              have heq := emitted_key_inj pfx hpfx hwq.1
                (List.cons_ne_nil _ _) hwq.2
                (fun s hs => by rcases List.mem_singleton.mp hs with rfl; exact hk)
                hmem
              exact pathsOf_first_ne hnd q hq [] heq
          rw [IH rest (sizeOf_rest_lt _ _ _) hrest pfx _ hpfx hfresh2,
            pathsOf_cons_leaf, List.map_cons, List.append_assoc,
            List.singleton_append]
      | node sub =>
          rw [flatten_yamlAux_cons_node, new_key_joinSegs pfx k hpfxne]
          have hsub := (wfVal_node_iff sub).mp hv
          have hsubwf := pathsOf_wf sub hsub.2
          have hpfx2 : ∀ s ∈ pfx ++ [k], goodKey s = true := by
            intro s hs
            rcases List.mem_append.mp hs with hs' | hs'
            · exact hpfx s hs'
            · rcases List.mem_singleton.mp hs' with rfl
              exact hk
          have hinner := IH sub (sizeOf_sub_lt _ _ _) hsub.2 (pfx ++ [k]) []
            hpfx2 (fun q _ hmem => by cases hmem)
          rw [hinner, List.nil_append]
          have hXnorm : (pathsOf sub).map
                (fun q => (joinSegs ((pfx ++ [k]) ++ q.1), q.2)) =
              (pathsOf sub).map
                (fun q => (joinSegs (pfx ++ k :: q.1), q.2)) := by
            refine List.map_congr_left (fun q _ => ?_)
            rw [List.append_assoc, List.singleton_append]
          rw [hXnorm]
          set X := (pathsOf sub).map (fun q => (joinSegs (pfx ++ k :: q.1), q.2))
            with hX
          have hXkeys : X.map Prod.fst =
              ((pathsOf sub).map (fun q => q.1)).map
                (fun p => joinSegs (pfx ++ k :: p)) := by
            rw [hX, List.map_map, List.map_map]
            rfl
          have hsubsegs : ∀ p ∈ (pathsOf sub).map (fun q => q.1),
              p ≠ [] ∧ ∀ s ∈ p, goodKey s = true := by
            intro p hp
            obtain ⟨q, hq, rfl⟩ := List.mem_map.mp hp
            exact hsubwf q hq
          have hXnodup : nodupKeys X := by
            unfold nodupKeys
            rw [hXkeys]
            refine List.Nodup.map_on ?_ (pathsOf_nodup sub hsub.2)
            intro p1 hp1 p2 hp2 he
            have h1 := hsubsegs p1 hp1
            have h2 := hsubsegs p2 hp2
            have hcons := emitted_key_inj pfx hpfx
              (List.cons_ne_nil k p1) (List.cons_ne_nil k p2)
              (fun s hs => by
                rcases List.mem_cons.mp hs with rfl | hs'
                · exact hk
                · exact h1.2 s hs')
              (fun s hs => by
                rcases List.mem_cons.mp hs with rfl | hs'
                · exact hk
                · exact h2.2 s hs')
              he
            injection hcons
          have hmemX : ∀ x ∈ X.map Prod.fst,
              ∃ q0 ∈ pathsOf sub, x = joinSegs (pfx ++ k :: q0.1) := by
            intro x hx
            rw [hXkeys] at hx
            obtain ⟨p, hp, rfl⟩ := List.mem_map.mp hx
            obtain ⟨q0, hq0, rfl⟩ := List.mem_map.mp hp
            exact ⟨q0, hq0, rfl⟩
          have hXdisj : ∀ x ∈ X.map Prod.fst, x ∉ items.map Prod.fst := by
            intro x hx
            obtain ⟨q0, hq0, rfl⟩ := hmemX x hx
            refine hfresh (k :: q0.1, q0.2) ?_
            rw [pathsOf_cons_node, List.mem_append]
            exact Or.inl (List.mem_map_of_mem _ hq0)
          rw [dictUpdate_eq_append hXnodup hXdisj]
          have hfresh3 : ∀ q ∈ pathsOf rest,
              joinSegs (pfx ++ q.1) ∉ (items ++ X).map Prod.fst := by
            intro q hq
            rw [List.map_append, List.mem_append]
            have hwq := hrestwf q hq
            rintro (hmem | hmem)
            · exact hfresh q
                (by rw [pathsOf_cons_node, List.mem_append]; exact Or.inr hq) hmem
            · obtain ⟨q0, hq0, he⟩ := hmemX _ hmem
              have h0 := hsubwf q0 hq0
              have heq := emitted_key_inj pfx hpfx hwq.1
                (List.cons_ne_nil _ _) hwq.2
                (fun s hs => by
                  rcases List.mem_cons.mp hs with rfl | hs'
                  · exact hk
                  · exact h0.2 s hs')
                he
              exact pathsOf_first_ne hnd q hq q0.1 heq
          rw [IH rest (sizeOf_rest_lt _ _ _) hrest pfx (items ++ X) hpfx hfresh3,
            pathsOf_cons_node, List.map_append, List.append_assoc]
          have hcomp : ((pathsOf sub).map (fun q => (k :: q.1, q.2))).map
              (fun q => (joinSegs (pfx ++ q.1), q.2)) = X := by
            rw [hX, List.map_map]
            rfl
          rw [hcomp]

/-! ## `unflatten_yaml` rebuilds the tree -/

theorem setPath_single {α : Type} (d : Entries α) (k : List Char) (v : YVal α) :
    setPath d [k] v = some (dictSet d k v) := rfl

theorem setPath_cons_node {α : Type} {d : Entries α} {k : List Char}
    {sub : Entries α} (h : dictGet d k = some (YVal.node sub))
    (k2 : List Char) (ks : List (List Char)) (v : YVal α) :
    setPath d (k :: k2 :: ks) v =
      (setPath sub (k2 :: ks) v).map (fun s => dictSet d k (YVal.node s)) := by
  simp [setPath, h]

theorem setPath_cons_fresh {α : Type} {d : Entries α} {k : List Char}
    (h : dictGet d k = none) (k2 : List Char) (ks : List (List Char))
    (v : YVal α) :
    setPath d (k :: k2 :: ks) v =
      (setPath [] (k2 :: ks) v).map (fun s => d ++ [(k, YVal.node s)]) := by
  simp [setPath, h]

theorem insertAll_nil {α : Type} (acc : Entries α) :
    insertAll acc [] = some acc := rfl

theorem insertAll_cons {α : Type} (acc : Entries α) (q) (qs) :
    insertAll acc (q :: qs) =
      (setPath acc q.1 q.2).bind (fun a => insertAll a qs) := by
  simp [insertAll]

theorem insertAll_append {α : Type} (acc : Entries α) (qs1 qs2) :
    insertAll acc (qs1 ++ qs2) =
      (insertAll acc qs1).bind (fun a => insertAll a qs2) := by
  simp [insertAll, List.foldlM_append]

/-- Inserting `k`-prefixed paths descends into the existing node at `k`. -/
theorem insertAll_prefixed {α : Type} (k : List Char) :
    ∀ qs : List (List (List Char) × YVal α), (∀ q ∈ qs, q.1 ≠ []) →
      ∀ (acc sub : Entries α), nodupKeys acc →
        dictGet acc k = some (YVal.node sub) →
        insertAll acc (qs.map (fun q => (k :: q.1, q.2))) =
          (insertAll sub qs).map (fun s => dictSet acc k (YVal.node s)) := by
  intro qs
  induction qs with
  | nil =>
      intro _ acc sub hndacc hget
      rw [List.map_nil, insertAll_nil, insertAll_nil, Option.map_some',
        dictSet_of_get_self hndacc hget]
  | cons q qs ih =>
      intro hne acc sub hndacc hget
      obtain ⟨k2, ks, hq1⟩ : ∃ k2 ks, q.1 = k2 :: ks := by
        cases hq : q.1 with
        | nil => exact absurd hq (hne q (List.mem_cons_self _ _))
        | cons a b => exact ⟨a, b, rfl⟩
      rw [List.map_cons, insertAll_cons, insertAll_cons, hq1,
        setPath_cons_node hget]
      cases hsp : setPath sub (k2 :: ks) q.2 with
      | none => simp
      | some s2 =>
          have hget2 : dictGet (dictSet acc k (YVal.node s2)) k =
              some (YVal.node s2) := dictGet_dictSet_self acc k _
          have hnd2 : nodupKeys (dictSet acc k (YVal.node s2)) :=
            nodupKeys_dictSet hndacc _
          simp only [Option.map_some', Option.some_bind]
          rw [ih (fun q' hq' => hne q' (List.mem_cons_of_mem _ hq')) _ s2
            hnd2 hget2]
          cases hins : insertAll s2 qs <;>
            simp [dictSet_dictSet hndacc]

/-- Inserting `k`-prefixed paths at a fresh key `k` creates the node at the
end and then descends into it. -/
theorem insertAll_prefixed_fresh {α : Type} (k : List Char)
    (q : List (List Char) × YVal α) (qs : List (List (List Char) × YVal α))
    (hne : ∀ q' ∈ q :: qs, q'.1 ≠ []) (acc : Entries α)
    (hndacc : nodupKeys acc) (hget : dictGet acc k = none) :
    insertAll acc ((q :: qs).map (fun q' => (k :: q'.1, q'.2))) =
      (insertAll [] (q :: qs)).map (fun s => acc ++ [(k, YVal.node s)]) := by
  obtain ⟨k2, ks, hq1⟩ : ∃ k2 ks, q.1 = k2 :: ks := by
    cases hq : q.1 with
    | nil => exact absurd hq (hne q (List.mem_cons_self _ _))
    | cons a b => exact ⟨a, b, rfl⟩
  rw [List.map_cons, insertAll_cons, insertAll_cons, hq1,
    setPath_cons_fresh hget]
  cases hsp : setPath ([] : Entries α) (k2 :: ks) q.2 with
  | none => simp
  | some s2 =>
      have hkfresh : k ∉ acc.map Prod.fst := (dictGet_eq_none_iff acc k).mp hget
      have hget2 := dictGet_append_fresh hkfresh (YVal.node s2)
      have hnd2 : nodupKeys (acc ++ [(k, YVal.node s2)]) := by
        rw [← dictSet_of_not_mem hkfresh]
        exact nodupKeys_dictSet hndacc _
      simp only [Option.map_some', Option.some_bind]
      rw [insertAll_prefixed k qs
        (fun q' hq' => hne q' (List.mem_cons_of_mem _ hq')) _ s2 hnd2 hget2]
      cases hins : insertAll s2 qs <;>
        simp [dictSet_append_last hkfresh hndacc]

/-- Inserting the depth-first leaf paths of a well-formed tree into an
accumulator with fresh keys appends the tree. -/
theorem insertAll_pathsOf {α : Type} :
    ∀ ts : Entries α, wfEntries ts = true →
      ∀ acc : Entries α, nodupKeys acc →
        (∀ k ∈ ts.map Prod.fst, k ∉ acc.map Prod.fst) →
        insertAll acc (pathsOf ts) = some (acc ++ ts) := by
  refine entries_strongInduction (fun ts IH hwf acc hnd hfresh => ?_)
  cases ts with
  | nil => rw [pathsOf_nil, insertAll_nil, List.append_nil]
  | cons p rest =>
      rcases p with ⟨k, v⟩
      rw [wfEntries_cons_iff] at hwf
      obtain ⟨_hk, hv, hsib, hrest⟩ := hwf
      have hkfresh : k ∉ acc.map Prod.fst :=
        hfresh k (List.mem_map_of_mem Prod.fst (List.mem_cons_self _ _))
      have hfresh2 : ∀ v2 : YVal α, ∀ k' ∈ rest.map Prod.fst,
          k' ∉ (acc ++ [(k, v2)]).map Prod.fst := by
        intro v2 k' hk' hmem
        rw [List.map_append, List.mem_append] at hmem
        rcases hmem with hmem | hmem
        · exact hfresh k' (List.map_cons _ _ _ ▸ List.mem_cons_of_mem _ hk')
            hmem
        · simp only [List.map_cons, List.map_nil, List.mem_singleton] at hmem
          obtain ⟨p0, hp0, hpk⟩ := List.mem_map.mp hk'
          exact hsib p0 hp0 (hpk.trans hmem)
      have hnd2 : ∀ v2 : YVal α, nodupKeys (acc ++ [(k, v2)]) := by
        intro v2
        rw [← dictSet_of_not_mem hkfresh]
        exact nodupKeys_dictSet hnd _
      cases v with
      | leaf a =>
          rw [pathsOf_cons_leaf, insertAll_cons, setPath_single,
            dictSet_of_not_mem hkfresh, Option.some_bind]
          rw [IH rest (sizeOf_rest_lt _ _ _) hrest _ (hnd2 _) (hfresh2 _),
            List.append_assoc, List.singleton_append]
      | node sub =>
          have hsub := (wfVal_node_iff sub).mp hv
          have hsubwf := pathsOf_wf sub hsub.2
          have hpne : pathsOf sub ≠ [] := pathsOf_ne_nil sub hsub.1 hsub.2
          obtain ⟨q0, qs0, hq0⟩ : ∃ q0 qs0, pathsOf sub = q0 :: qs0 := by
            cases hp : pathsOf sub with
            | nil => exact absurd hp hpne
            | cons a b => exact ⟨a, b, rfl⟩
          rw [pathsOf_cons_node, insertAll_append, hq0]
          rw [insertAll_prefixed_fresh k q0 qs0
            (fun q' hq' => (hsubwf q' (hq0 ▸ hq')).1) acc hnd
            ((dictGet_eq_none_iff acc k).mpr hkfresh)]
          have hinner := IH sub (sizeOf_sub_lt _ _ _) hsub.2 [] nodupKeys_nil
            (fun k' _ hm => by simp at hm)
          rw [← hq0, hinner]
          simp only [List.nil_append, Option.map_some', Option.some_bind]
          rw [IH rest (sizeOf_rest_lt _ _ _) hrest _ (hnd2 _) (hfresh2 _),
            List.append_assoc, List.singleton_append]

/-- `unflatten_yaml` on the dot-joined image of split-clean paths is
`insertAll` on the paths themselves. -/
theorem foldl_setPath_mapped {α : Type} :
    ∀ qs : List (List (List Char) × YVal α),
      (∀ q ∈ qs, splitDot (joinSegs q.1) = q.1) →
      ∀ acc : Entries α,
        List.foldlM (fun a (p : List Char × YVal α) =>
            setPath a (splitDot p.1) p.2) acc
          (qs.map (fun q => (joinSegs q.1, q.2))) = insertAll acc qs := by
  intro qs
  induction qs with
  | nil => intro _ acc; rfl
  | cons q qs ih =>
      intro hsp acc
      rw [List.map_cons, List.foldlM_cons, insertAll_cons,
        hsp q (List.mem_cons_self _ _)]
      cases hstep : setPath acc q.1 q.2 with
      | none => rfl
      | some a2 =>
          simp only [Option.some_bind]
          exact ih (fun q' hq' => hsp q' (List.mem_cons_of_mem _ hq')) a2

/-- C3: corrected (amended).  The claim as stated fails on trees holding an
empty mapping value or an empty key (see the counterexample theorem); with
the hypothesis strengthened to `wfEntries` — every key non-empty and
separator-free, sibling keys distinct as in a Python dict, every nested
mapping non-empty — the round trip holds:
`unflatten_yaml (flatten_yaml T) = T` for scalar-or-mapping-valued `T`. -/
theorem unflatten_flatten_roundtrip_of_wf {α : Type} (ts : Entries α)
    (h : wfEntries ts = true) :
    unflatten_yaml (flatten_yaml ts []) = some ts := by
  have hwfp := pathsOf_wf ts h
  have hflat := flatten_yamlAux_eq ts h [] []
    (fun s hs => by cases hs) (fun q _ hmem => by cases hmem)
  unfold flatten_yaml
  rw [show ([] : List Char) = joinSegs ([] : List (List Char)) from rfl,
    hflat, List.nil_append]
  have hnorm : (pathsOf ts).map
      (fun q => (joinSegs ([] ++ q.1), q.2)) =
      (pathsOf ts).map (fun q => (joinSegs q.1, q.2)) :=
    List.map_congr_left (fun q _ => by rw [List.nil_append])
  rw [hnorm]
  have hsplit : ∀ q ∈ pathsOf ts, splitDot (joinSegs q.1) = q.1 := by
    intro q hq
    exact splitDot_joinSegs (hwfp q hq).1
      (fun s hs => goodKey_no_dot ((hwfp q hq).2 s hs))
  unfold unflatten_yaml
  rw [foldl_setPath_mapped (pathsOf ts) hsplit [],
    insertAll_pathsOf ts h [] nodupKeys_nil (fun k _ hm => by simp at hm),
    List.nil_append]

/-- C3 counterexample: the round-trip claim as stated (only requiring
separator-free keys and scalar-or-mapping values) is false.  First instance:
`{a: {}}` — the empty mapping is dropped by `flatten_yaml`, so the round trip
returns the empty tree.  Second instance: the empty key `""` — Python's
`f"{prefix}.{k}" if prefix else k` tests the truthiness of the prefix, so the
subtree of `""` flattens to bare child keys that collide with the sibling
`"b"`.  Both inputs satisfy the claim's stated hypotheses (all keys are
separator-free). -/
theorem unflatten_flatten_roundtrip_counterexample :
    ((['a'] : List Char).any (fun c => c = '.') = false ∧
      unflatten_yaml (flatten_yaml [(['a'], (YVal.node [] : YVal Nat))] []) ≠
        some [(['a'], YVal.node [])]) ∧
    ((∀ k ∈ [([] : List Char), ['b']], k.any (fun c => c = '.') = false) ∧
      unflatten_yaml (flatten_yaml
          [(([] : List Char), YVal.node [(['b'], (YVal.leaf 0 : YVal Nat))]),
           (['b'], YVal.leaf 1)] []) ≠
        some [(([] : List Char), YVal.node [(['b'], YVal.leaf 0)]),
          (['b'], YVal.leaf 1)]) := by
  refine ⟨⟨by decide, ?_⟩, ⟨by decide, ?_⟩⟩
  · have h : unflatten_yaml
        (flatten_yaml [(['a'], (YVal.node [] : YVal Nat))] []) = some [] := by
      simp [flatten_yaml, flatten_yamlAux, dictUpdate, unflatten_yaml]
    rw [h]
    simp
  · have h : unflatten_yaml (flatten_yaml
        [(([] : List Char), YVal.node [(['b'], (YVal.leaf 0 : YVal Nat))]),
         (['b'], YVal.leaf 1)] []) = some [(['b'], YVal.leaf 1)] := by
      simp [flatten_yaml, flatten_yamlAux, dictUpdate, unflatten_yaml,
        dictSet, setPath, splitDot, dictGet]
    rw [h]
    simp

/-- C3 witness: the amended round-trip theorem applied to the concrete
well-formed tree `{a: {b: 1}, c: 2}`. -/
theorem unflatten_flatten_roundtrip_of_wf_witness :
    wfEntries [(['a'], YVal.node [(['b'], (YVal.leaf 1 : YVal Nat))]),
        (['c'], YVal.leaf 2)] = true ∧
    unflatten_yaml (flatten_yaml
        [(['a'], YVal.node [(['b'], (YVal.leaf 1 : YVal Nat))]),
         (['c'], YVal.leaf 2)] []) =
      some [(['a'], YVal.node [(['b'], YVal.leaf 1)]), (['c'], YVal.leaf 2)] := by
  have h : wfEntries [(['a'], YVal.node [(['b'], (YVal.leaf 1 : YVal Nat))]),
      (['c'], YVal.leaf 2)] = true := by decide
  exact ⟨h, unflatten_flatten_roundtrip_of_wf _ h⟩

/-! ## Empty mappings are dropped by `flatten_yaml` (C10 support) -/

theorem hasEmptyNodeVal_leaf {α : Type} (a : α) :
    hasEmptyNodeVal (YVal.leaf a) = false := by simp [hasEmptyNodeVal]

theorem hasEmptyNodeEntries_nil {α : Type} :
    hasEmptyNodeEntries ([] : Entries α) = false := by
  simp [hasEmptyNodeEntries]

theorem hasEmptyNodeEntries_eq_false_iff {α : Type} :
    ∀ ts : Entries α, hasEmptyNodeEntries ts = false ↔
      ∀ p ∈ ts, hasEmptyNodeVal p.2 = false := by
  intro ts
  induction ts with
  | nil => simp [hasEmptyNodeEntries]
  | cons p rest ih =>
      rcases p with ⟨k, v⟩
      rw [show hasEmptyNodeEntries ((k, v) :: rest) =
          (hasEmptyNodeVal v || hasEmptyNodeEntries rest) from by
        simp [hasEmptyNodeEntries]]
      rw [Bool.or_eq_false_iff]
      constructor
      · rintro ⟨h1, h2⟩ p hp
        rcases List.mem_cons.mp hp with rfl | hp'
        · exact h1
        · exact ih.mp h2 p hp'
      · intro h
        exact ⟨h _ (List.mem_cons_self _ _),
          ih.mpr (fun p hp => h p (List.mem_cons_of_mem _ hp))⟩

theorem hasEmptyNodeVal_node_false_iff {α : Type} (sub : Entries α) :
    hasEmptyNodeVal (YVal.node sub) = false ↔
      sub ≠ [] ∧ hasEmptyNodeEntries sub = false := by
  rw [show hasEmptyNodeVal (YVal.node sub) =
      (sub.isEmpty || hasEmptyNodeEntries sub) from by simp [hasEmptyNodeVal]]
  rw [Bool.or_eq_false_iff]
  constructor
  · rintro ⟨h1, h2⟩
    refine ⟨fun he => ?_, h2⟩
    subst he
    simp at h1
  · rintro ⟨h1, h2⟩
    refine ⟨?_, h2⟩
    cases sub with
    | nil => exact absurd rfl h1
    | cons a b => rfl

theorem dictSet_ne_nil {β} (d : List (List Char × β)) (k : List Char)
    (v : β) : dictSet d k v ≠ [] := by
  by_cases hm : k ∈ d.map Prod.fst
  · rw [dictSet_eq_map_of_mem hm]
    intro he
    rw [List.map_eq_nil_iff] at he
    subst he
    simp at hm
  · rw [dictSet_of_not_mem hm]
    intro he
    exact List.cons_ne_nil _ _ (List.append_eq_nil.mp he).2

theorem setPath_cons_leaf_val {α : Type} {d : Entries α} {k : List Char}
    {a : α} (h : dictGet d k = some (YVal.leaf a)) (k2 : List Char)
    (ks : List (List Char)) (v : YVal α) :
    setPath d (k :: k2 :: ks) v = none := by
  simp [setPath, h]

theorem setPath_ne_nil {α : Type} :
    ∀ (path : List (List Char)) (acc : Entries α) (v : YVal α)
      (r : Entries α), setPath acc path v = some r → r ≠ [] := by
  intro path
  match path with
  | [] => intro acc v r h; exact Option.noConfusion h
  | [k] =>
      intro acc v r h
      rw [setPath_single] at h
      injection h with h
      exact h ▸ dictSet_ne_nil acc k v
  | k :: k2 :: ks =>
      intro acc v r h
      cases hget : dictGet acc k with
      | none =>
          rw [setPath_cons_fresh hget] at h
          cases hsp : setPath ([] : Entries α) (k2 :: ks) v with
          | none => rw [hsp] at h; cases h
          | some s2 =>
              rw [hsp, Option.map_some'] at h
              injection h with h
              intro he
              rw [← h] at he
              exact List.cons_ne_nil _ _ (List.append_eq_nil.mp he).2
      | some val =>
          cases val with
          | leaf a => rw [setPath_cons_leaf_val hget] at h; cases h
          | node sub =>
              rw [setPath_cons_node hget] at h
              cases hsp : setPath sub (k2 :: ks) v with
              | none => rw [hsp] at h; cases h
              | some s2 =>
                  rw [hsp, Option.map_some'] at h
                  injection h with h
                  exact h ▸ dictSet_ne_nil acc k (YVal.node s2)

theorem mem_dictSet {β} (d : List (List Char × β)) (k : List Char) (v : β) :
    ∀ p ∈ dictSet d k v, p = (k, v) ∨ p ∈ d := by
  intro p hp
  by_cases hm : k ∈ d.map Prod.fst
  · rw [dictSet_eq_map_of_mem hm] at hp
    obtain ⟨p0, hp0, he⟩ := List.mem_map.mp hp
    by_cases h0 : p0.1 = k
    · rw [if_pos h0] at he
      exact Or.inl he.symm
    · rw [if_neg h0] at he
      exact Or.inr (he ▸ hp0)
  · rw [dictSet_of_not_mem hm] at hp
    rcases List.mem_append.mp hp with hp' | hp'
    · exact Or.inr hp'
    · exact Or.inl (List.mem_singleton.mp hp')

theorem mem_dictUpdate {β} :
    ∀ (e d : List (List Char × β)) (p), p ∈ dictUpdate d e →
      p ∈ d ∨ p ∈ e := by
  intro e
  induction e with
  | nil => intro d p hp; exact Or.inl hp
  | cons q e' ih =>
      intro d p hp
      rw [dictUpdate_cons] at hp
      rcases ih _ p hp with hp' | hp'
      · rcases mem_dictSet d q.1 q.2 p hp' with he | hd
        · right
          rw [show ((q.1, q.2) : List Char × β) = q from rfl] at he
          rw [he]
          exact List.mem_cons_self _ _
        · exact Or.inl hd
      · exact Or.inr (List.mem_cons_of_mem _ hp')

/-- `flatten_yamlAux` only emits scalar (non-mapping) values. -/
theorem flatten_values_leaf {α : Type} :
    ∀ ts : Entries α, ∀ (pfx : List Char) (items : Entries α),
      (∀ p ∈ items, isLeafVal p.2 = true) →
      ∀ p ∈ flatten_yamlAux ts pfx items, isLeafVal p.2 = true := by
  refine entries_strongInduction (fun ts IH pfx items hitems p hp => ?_)
  cases ts with
  | nil =>
      rw [flatten_yamlAux_nil] at hp
      exact hitems p hp
  | cons q rest =>
      rcases q with ⟨k, v⟩
      cases v with
      | leaf a =>
          rw [flatten_yamlAux_cons_leaf] at hp
          refine IH rest (sizeOf_rest_lt _ _ _) pfx _ ?_ p hp
          intro p2 hp2
          rcases mem_dictSet _ _ _ p2 hp2 with he | hd
          · rw [he]
            rfl
          · exact hitems p2 hd
      | node sub =>
          rw [flatten_yamlAux_cons_node] at hp
          refine IH rest (sizeOf_rest_lt _ _ _) pfx _ ?_ p hp
          intro p2 hp2
          rcases mem_dictUpdate _ _ p2 hp2 with hd | hX
          · exact hitems p2 hd
          · exact IH sub (sizeOf_sub_lt _ _ _) _ []
              (fun p3 hp3 => by cases hp3) p2 hX

theorem dictGet_some_mem {β} {d : List (List Char × β)} {k : List Char}
    {v : β} (h : dictGet d k = some v) : ∃ k', (k', v) ∈ d := by
  unfold dictGet at h
  cases hf : List.find? (fun p => decide (p.1 = k)) d with
  | none => rw [hf] at h; cases h
  | some p =>
      rw [hf, Option.map_some'] at h
      injection h with h
      refine ⟨p.1, ?_⟩
      rw [← h, show ((p.1, p.2) : List Char × β) = p from rfl]
      exact List.mem_of_find?_eq_some hf

/-- `setPath` with a scalar value cannot create an empty mapping anywhere. -/
theorem setPath_no_empty {α : Type} :
    ∀ (path : List (List Char)) (acc : Entries α) (v : YVal α),
      isLeafVal v = true → hasEmptyNodeEntries acc = false →
      ∀ r, setPath acc path v = some r →
        hasEmptyNodeEntries r = false := by
  intro path
  induction path with
  | nil => intro acc v _ _ r h; exact Option.noConfusion h
  | cons k ks ih =>
      intro acc v hleaf hacc r h
      cases ks with
      | nil =>
          rw [setPath_single] at h
          injection h with h
          subst h
          rw [hasEmptyNodeEntries_eq_false_iff]
          intro p hp
          rcases mem_dictSet _ _ _ p hp with he | hd
          · cases v with
            | leaf a => rw [he]; exact hasEmptyNodeVal_leaf a
            | node s => exact absurd hleaf (by simp [isLeafVal])
          · exact (hasEmptyNodeEntries_eq_false_iff acc).mp hacc p hd
      | cons k2 ks2 =>
          cases hget : dictGet acc k with
          | none =>
              rw [setPath_cons_fresh hget] at h
              cases hsp : setPath ([] : Entries α) (k2 :: ks2) v with
              | none => rw [hsp] at h; cases h
              | some s2 =>
                  rw [hsp, Option.map_some'] at h
                  injection h with h
                  subst h
                  have hs2 := ih [] v hleaf hasEmptyNodeEntries_nil s2 hsp
                  have hs2ne := setPath_ne_nil (k2 :: ks2) [] v s2 hsp
                  rw [hasEmptyNodeEntries_eq_false_iff]
                  intro p hp
                  rcases List.mem_append.mp hp with hd | hone
                  · exact (hasEmptyNodeEntries_eq_false_iff acc).mp hacc p hd
                  · rcases List.mem_singleton.mp hone with rfl
                    exact (hasEmptyNodeVal_node_false_iff s2).mpr ⟨hs2ne, hs2⟩
          | some val =>
              cases val with
              | leaf a => rw [setPath_cons_leaf_val hget] at h; cases h
              | node sub =>
                  rw [setPath_cons_node hget] at h
                  cases hsp : setPath sub (k2 :: ks2) v with
                  | none => rw [hsp] at h; cases h
                  | some s2 =>
                      rw [hsp, Option.map_some'] at h
                      injection h with h
                      subst h
                      have hsubmem := dictGet_some_mem hget
                      obtain ⟨k', hk'⟩ := hsubmem
                      have hsubfalse : hasEmptyNodeVal (YVal.node sub) = false :=
                        (hasEmptyNodeEntries_eq_false_iff acc).mp hacc _ hk'
                      have hsub := (hasEmptyNodeVal_node_false_iff sub).mp
                        hsubfalse
                      have hs2 := ih sub v hleaf hsub.2 s2 hsp
                      have hs2ne := setPath_ne_nil _ _ _ _ hsp
                      rw [hasEmptyNodeEntries_eq_false_iff]
                      intro p hp
                      rcases mem_dictSet _ _ _ p hp with he | hd
                      · rw [he]
                        exact (hasEmptyNodeVal_node_false_iff s2).mpr
                          ⟨hs2ne, hs2⟩
                      · exact (hasEmptyNodeEntries_eq_false_iff acc).mp hacc
                          p hd

theorem foldl_setPath_no_empty {α : Type} :
    ∀ (d : List (List Char × YVal α)) (acc : Entries α),
      (∀ p ∈ d, isLeafVal p.2 = true) → hasEmptyNodeEntries acc = false →
      ∀ r, List.foldlM (fun a (p : List Char × YVal α) =>
          setPath a (splitDot p.1) p.2) acc d = some r →
        hasEmptyNodeEntries r = false := by
  intro d
  induction d with
  | nil =>
      intro acc _ hacc r h
      rw [List.foldlM_nil] at h
      injection h with h
      exact h ▸ hacc
  | cons q d' ih =>
      intro acc hleaf hacc r h
      rw [List.foldlM_cons] at h
      cases hstep : setPath acc (splitDot q.1) q.2 with
      | none =>
          rw [hstep] at h
          exact Option.noConfusion h
      | some a2 =>
          rw [hstep] at h
          have ha2 := setPath_no_empty (splitDot q.1) acc q.2
            (hleaf q (List.mem_cons_self _ _)) hacc a2 hstep
          exact ih a2 (fun p hp => hleaf p (List.mem_cons_of_mem _ hp)) ha2 r h

/-- C10: confirmed.  An entry whose value is an empty mapping is silently
dropped by `flatten_yaml` — it contributes nothing to the flat dict (first
conjunct, directly at the fold step that handles it).  Consequently, for any
tree in which some key's value is an empty mapping, the flatten/unflatten
round trip cannot return the tree: `flatten_yaml` emits only scalar values,
and `unflatten_yaml` of a scalar-valued dict never contains an empty mapping
value (second conjunct). -/
theorem flatten_drops_empty_mapping {α : Type} :
    (∀ (k : List Char) (rest : Entries α) (pfx : List Char)
        (items : Entries α),
      flatten_yamlAux ((k, YVal.node []) :: rest) pfx items =
        flatten_yamlAux rest pfx items) ∧
    (∀ ts : Entries α, hasEmptyNodeEntries ts = true →
      unflatten_yaml (flatten_yaml ts []) ≠ some ts) := by
  constructor
  · intro k rest pfx items
    rw [flatten_yamlAux_cons_node, flatten_yamlAux_nil, dictUpdate_nil_right]
  · intro ts hts hcontra
    have hleaf : ∀ p ∈ flatten_yaml ts [], isLeafVal p.2 = true := by
      intro p hp
      exact flatten_values_leaf ts [] [] (fun p2 hp2 => by cases hp2) p hp
    unfold unflatten_yaml at hcontra
    have hno := foldl_setPath_no_empty (flatten_yaml ts []) [] hleaf
      hasEmptyNodeEntries_nil ts hcontra
    rw [hts] at hno
    cases hno

/-- C10 witness: the theorem's second conjunct applied to the concrete tree
`{a: {}}`. -/
theorem flatten_drops_empty_mapping_witness :
    hasEmptyNodeEntries [(['a'], (YVal.node [] : YVal Nat))] = true ∧
    unflatten_yaml (flatten_yaml [(['a'], (YVal.node [] : YVal Nat))] []) ≠
      some [(['a'], YVal.node [])] := by
  have h : hasEmptyNodeEntries [(['a'], (YVal.node [] : YVal Nat))] = true := by
    decide
  exact ⟨h, (flatten_drops_empty_mapping).2 _ h⟩

/-! ## The batch planner (`chunked`) -/

theorem chunkedAux_nil {γ : Type} (n : Nat) :
    ∀ fuel : Nat, chunkedAux n fuel ([] : List γ) = [] := by
  intro fuel
  cases fuel <;> rfl

theorem chunkedAux_ne_nil {γ : Type} (n : Nat) {fuel : Nat} {l : List γ}
    (hl : l ≠ []) (hfuel : 1 ≤ fuel) : chunkedAux n fuel l ≠ [] := by
  cases fuel with
  | zero => omega
  | succ f =>
      cases l with
      | nil => exact absurd rfl hl
      | cons c rest => exact List.cons_ne_nil _ _

theorem chunkedAux_join {γ : Type} (n : Nat) (hn : 1 ≤ n) :
    ∀ (fuel : Nat) (l : List γ), l.length ≤ fuel →
      (chunkedAux n fuel l).flatten = l := by
  intro fuel
  induction fuel with
  | zero =>
      intro l hl
      rw [List.eq_nil_of_length_eq_zero (Nat.le_zero.mp hl), chunkedAux_nil]
      rfl
  | succ f ih =>
      intro l hl
      cases l with
      | nil => rw [chunkedAux_nil]; rfl
      | cons c rest =>
          have hdl : ((c :: rest).drop n).length ≤ f := by
            rw [List.length_drop, List.length_cons]
            rw [List.length_cons] at hl
            omega
          rw [chunkedAux, List.flatten_cons, ih ((c :: rest).drop n) hdl]
          exact List.take_append_drop n (c :: rest)

theorem chunkedAux_length {γ : Type} (n : Nat) (hn : 1 ≤ n) :
    ∀ (fuel : Nat) (l : List γ), l.length ≤ fuel →
      (chunkedAux n fuel l).length = (l.length + n - 1) / n := by
  intro fuel
  induction fuel with
  | zero =>
      intro l hl
      rw [List.eq_nil_of_length_eq_zero (Nat.le_zero.mp hl), chunkedAux_nil]
      simp only [List.length_nil, Nat.zero_add]
      exact (Nat.div_eq_of_lt (by omega)).symm
  | succ f ih =>
      intro l hl
      cases l with
      | nil =>
          rw [chunkedAux_nil]
          simp only [List.length_nil, Nat.zero_add]
          exact (Nat.div_eq_of_lt (by omega)).symm
      | cons c rest =>
          have hdl : ((c :: rest).drop n).length ≤ f := by
            rw [List.length_drop, List.length_cons]
            rw [List.length_cons] at hl
            omega
          rw [chunkedAux, List.length_cons, ih ((c :: rest).drop n) hdl]
          rw [List.length_drop]
          set m := (c :: rest).length with hm
          have hm1 : 1 ≤ m := by rw [hm]; simp
          have key : (m + n - 1) / n = (m - 1) / n + 1 := by
            rw [show m + n - 1 = (m - 1) + n from by omega]
            exact Nat.add_div_right _ (by omega)
          have key2 : (m - n + n - 1) / n = (m - 1) / n := by
            by_cases hmn : n ≤ m
            · congr 1
              omega
            · rw [show m - n = 0 from by omega]
              rw [Nat.div_eq_of_lt (by omega), Nat.div_eq_of_lt (by omega)]
          rw [key, key2]

theorem chunkedAux_dropLast {γ : Type} (n : Nat) (hn : 1 ≤ n) :
    ∀ (fuel : Nat) (l : List γ), l.length ≤ fuel →
      ∀ c ∈ (chunkedAux n fuel l).dropLast, c.length = n := by
  intro fuel
  induction fuel with
  | zero =>
      intro l hl c hc
      rw [List.eq_nil_of_length_eq_zero (Nat.le_zero.mp hl), chunkedAux_nil]
        at hc
      cases hc
  | succ f ih =>
      intro l hl c hc
      cases l with
      | nil => rw [chunkedAux_nil] at hc; cases hc
      | cons c0 rest =>
          rw [chunkedAux] at hc
          by_cases hd : (c0 :: rest).drop n = []
          · rw [hd, chunkedAux_nil] at hc
            cases hc
          · have hdl : ((c0 :: rest).drop n).length ≤ f := by
              rw [List.length_drop, List.length_cons]
              rw [List.length_cons] at hl
              omega
            have hne : chunkedAux n f ((c0 :: rest).drop n) ≠ [] :=
              chunkedAux_ne_nil n hd (by
                have h1 := List.length_pos.mpr hd
                have h2 := hdl
                rw [List.length_drop, List.length_cons] at h1 h2
                omega)
            rw [List.dropLast_cons_of_ne_nil hne] at hc
            rcases List.mem_cons.mp hc with rfl | hc'
            · rw [List.length_take]
              have hlen : n < (c0 :: rest).length := by
                by_contra hcon
                exact hd (List.drop_eq_nil_of_le (by omega))
              omega
            · exact ih ((c0 :: rest).drop n) hdl c hc'

theorem chunkedAux_getLast {γ : Type} (n : Nat) (hn : 1 ≤ n) :
    ∀ (fuel : Nat) (l : List γ), l.length ≤ fuel → l ≠ [] →
      ∀ c, (chunkedAux n fuel l).getLast? = some c →
        c.length = l.length - n * ((chunkedAux n fuel l).length - 1) ∧
          n * ((chunkedAux n fuel l).length - 1) < l.length := by
  intro fuel
  induction fuel with
  | zero =>
      intro l hl hne
      rw [List.eq_nil_of_length_eq_zero (Nat.le_zero.mp hl)] at hne
      exact absurd rfl hne
  | succ f ih =>
      intro l hl hne c hc
      cases l with
      | nil => exact absurd rfl hne
      | cons c0 rest =>
          rw [chunkedAux] at hc ⊢
          by_cases hd : (c0 :: rest).drop n = []
          · rw [hd, chunkedAux_nil] at hc ⊢
            have hmn : (c0 :: rest).length ≤ n := by
              have h1 := congrArg List.length hd
              rw [List.length_drop] at h1
              simp only [List.length_nil] at h1
              omega
            simp only [List.getLast?_singleton, Option.some_inj] at hc
            subst hc
            rw [List.length_take]
            refine ⟨?_, by simp⟩
            have h0 : n * (([List.take n (c0 :: rest)] :
                List (List γ)).length - 1) = 0 := by simp
            rw [h0]
            omega
          · have hdlen : ((c0 :: rest).drop n).length ≤ f := by
              rw [List.length_drop, List.length_cons]
              rw [List.length_cons] at hl
              omega
            have hfuel1 : 1 ≤ f := by
              have h1 := List.length_pos.mpr hd
              have h2 := hdlen
              rw [List.length_drop, List.length_cons] at h1 h2
              omega
            have hinner : chunkedAux n f ((c0 :: rest).drop n) ≠ [] :=
              chunkedAux_ne_nil n hd hfuel1
            obtain ⟨i0, irest, hi⟩ : ∃ i0 irest,
                chunkedAux n f ((c0 :: rest).drop n) = i0 :: irest := by
              cases hii : chunkedAux n f ((c0 :: rest).drop n) with
              | nil => exact absurd hii hinner
              | cons a b => exact ⟨a, b, rfl⟩
            rw [hi] at hc ⊢
            rw [List.getLast?_cons_cons] at hc
            have hIH := ih ((c0 :: rest).drop n) hdlen hd c (hi ▸ hc)
            rw [hi] at hIH
            have hdroplen : ((c0 :: rest).drop n).length =
                (c0 :: rest).length - n := List.length_drop n _
            rw [hdroplen] at hIH
            have hnm : n < (c0 :: rest).length := by
              have h1 := List.length_pos.mpr hd
              rw [hdroplen] at h1
              omega
            simp only [List.length_cons, Nat.add_sub_cancel] at hIH ⊢
            rw [Nat.mul_succ]
            omega

/-- C8: confirmed.  For every batch size `n ≥ 1`, the planner
`chunked(translatable_items, batch_size)` produces exactly
`ceil(m/n) = (m + n - 1) / n` batches, every batch except possibly the last
has size exactly `n`, the last (when it exists) has size
`m - n*(ceil(m/n) - 1)`, and concatenating the batches in order reproduces
the original entry sequence. -/
theorem chunked_partition_spec {γ : Type} (n : Nat) (hn : 1 ≤ n)
    (l : List γ) :
    (chunked l n).flatten = l ∧
    (chunked l n).length = (l.length + n - 1) / n ∧
    (∀ c ∈ (chunked l n).dropLast, c.length = n) ∧
    (∀ c, (chunked l n).getLast? = some c →
      c.length = l.length - n * ((l.length + n - 1) / n - 1)) := by
  refine ⟨chunkedAux_join n hn l.length l (Nat.le_refl _),
    chunkedAux_length n hn l.length l (Nat.le_refl _),
    chunkedAux_dropLast n hn l.length l (Nat.le_refl _), ?_⟩
  intro c hc
  cases hl : l with
  | nil =>
      subst hl
      rw [show chunked ([] : List γ) n = [] from rfl] at hc
      cases hc
  | cons c0 rest =>
      subst hl
      have h := chunkedAux_getLast n hn (c0 :: rest).length (c0 :: rest)
        (Nat.le_refl _) (List.cons_ne_nil _ _) c hc
      rw [show chunked (c0 :: rest) n =
        chunkedAux n (c0 :: rest).length (c0 :: rest) from rfl] at *
      rw [chunkedAux_length n hn (c0 :: rest).length (c0 :: rest)
        (Nat.le_refl _)] at h
      exact h.1

/-- C8 witness: batch size 2 over 5 items gives the batch plan
`[[1, 2], [3, 4], [5]]` — 3 batches, all but the last of size 2, the last of
size `5 - 2*2 = 1`, concatenation in order. -/
theorem chunked_partition_spec_witness :
    (1 ≤ 2 ∧ chunked [1, 2, 3, 4, 5] 2 = [[1, 2], [3, 4], [5]]) ∧
    ([[1, 2], [3, 4], [5]] : List (List Nat)).flatten = [1, 2, 3, 4, 5] ∧
    ([[1, 2], [3, 4], [5]] : List (List Nat)).length = (5 + 2 - 1) / 2 ∧
    (∀ c ∈ ([[1, 2], [3, 4], [5]] : List (List Nat)).dropLast,
      c.length = 2) ∧
    (∀ c, ([[1, 2], [3, 4], [5]] : List (List Nat)).getLast? = some c →
      c.length = 5 - 2 * ((5 + 2 - 1) / 2 - 1)) := by
  have h := chunked_partition_spec 2 (by decide) [1, 2, 3, 4, 5]
  have heq : chunked [1, 2, 3, 4, 5] 2 = [[1, 2], [3, 4], [5]] := by decide
  rw [heq] at h
  exact ⟨⟨by decide, heq⟩, h⟩

/-! ## Retry loop lemmas -/

theorem retryAux_succeeds {ρ : Type} (call : Nat → Option ρ) (r : ρ) :
    ∀ (k rem attempt : Nat), k < rem →
      (∀ j < k, call (attempt + j) = none) → call (attempt + k) = some r →
      retryAux call rem attempt =
        (some r, (List.range k).map (fun j => 2 ^ (attempt + j))) := by
  intro k
  induction k with
  | zero =>
      intro rem attempt hrem _ hsucc
      cases rem with
      | zero => omega
      | succ rem' =>
          simp only [Nat.add_zero] at hsucc
          rw [retryAux, hsucc]
          rfl
  | succ k ih =>
      intro rem attempt hrem hfail hsucc
      cases rem with
      | zero => omega
      | succ rem' =>
          have h0 : call attempt = none := by
            have := hfail 0 (by omega)
            simpa using this
          rw [retryAux, h0]
          have hrem' : rem' ≠ 0 := by omega
          rw [if_neg hrem']
          have hnext := ih rem' (attempt + 1) (by omega)
            (fun j hj => by
              have := hfail (j + 1) (by omega)
              rw [show attempt + 1 + j = attempt + (j + 1) from by omega]
              exact this)
            (by rw [show attempt + 1 + k = attempt + (k + 1) from by omega]
                exact hsucc)
          rw [hnext]
          rw [List.range_succ_eq_map, List.map_cons, List.map_map]
          refine congrArg (fun l => (some r, 2 ^ (attempt + 0) :: l)) ?_
          refine List.map_congr_left (fun j _ => ?_)
          rw [Function.comp_apply]
          rw [show attempt + 1 + j = attempt + (j + 1) from by omega]

theorem retryAux_all_fail {ρ : Type} (call : Nat → Option ρ)
    (hfail : ∀ a, call a = none) :
    ∀ rem attempt, (retryAux call rem attempt).1 = none := by
  intro rem
  induction rem with
  | zero => intro attempt; rfl
  | succ rem' ih =>
      intro attempt
      rw [retryAux, hfail attempt]
      by_cases h : rem' = 0
      · rw [if_pos h]
      · rw [if_neg h]
        exact ih (attempt + 1)

theorem process_batch_of_retry_fail {maxR : Nat}
    {call : Nat → Option (List PyStr)} (chunk : List (PyStr × PyStr))
    (output : List (List Char × PyStr))
    (hf : (retryCall call maxR).1 = none) :
    process_batch maxR call chunk output = (false, output, [], (retryCall call maxR).2) := by
  unfold process_batch
  rcases hr : retryCall call maxR with ⟨o, ds⟩
  rw [hr] at hf
  simp only at hf
  subst hf
  rfl

theorem runBatchesAux_failed_step {maxR idx : Nat}
    {call : Nat → Nat → Option (List PyStr)}
    {chunk : List (PyStr × PyStr)} {rest : List (List (PyStr × PyStr))}
    {st : RunState}
    (h : (process_batch maxR (call idx) chunk st.output).1 = false) :
    runBatchesAux maxR call idx (chunk :: rest) st =
      runBatchesAux maxR call (idx + 1) rest st := by
  rw [runBatchesAux]
  simp only [h, Bool.false_eq_true, if_false]

/-- C6: confirmed.  If a batch's API call fails deterministically on the
first `k < max_retries` attempts and succeeds on attempt `k+1`, the batch
succeeds and exactly `k` backoff delays `2^0, …, 2^(k-1)` are slept, each
double the previous (hence non-decreasing).  If instead all `max_retries`
attempts fail, `process_batch` reports failure and the batch loop of
`translate_yaml_file` moves on to the next batch with the run state
untouched. -/
theorem process_batch_retry_spec (maxR k : Nat)
    (call : Nat → Option (List PyStr)) (lines : List PyStr)
    (chunk : List (PyStr × PyStr)) (output : List (List Char × PyStr))
    (hk : k < maxR) (hfail : ∀ j < k, call j = none)
    (hsucc : call k = some lines) :
    ((process_batch maxR call chunk output).1 = true ∧
      (process_batch maxR call chunk output).2.2.2 =
        (List.range k).map (fun j => 2 ^ j) ∧
      ((List.range k).map (fun j => (2 : Nat) ^ j)).length = k ∧
      (∀ i, i + 1 < k →
        ((List.range k).map (fun j => (2 : Nat) ^ j)).get? (i + 1) =
          (((List.range k).map (fun j => (2 : Nat) ^ j)).get? i).map
            (fun d => 2 * d)) ∧
      ((List.range k).map (fun j => (2 : Nat) ^ j)).Pairwise (· ≤ ·)) ∧
    (∀ (call2 : Nat → Option (List PyStr)), (∀ a, call2 a = none) →
      (process_batch maxR call2 chunk output).1 = false ∧
      (process_batch maxR call2 chunk output).2.1 = output) ∧
    (∀ (bcall : Nat → Nat → Option (List PyStr)) (idx : Nat)
        (chunk2 : List (PyStr × PyStr))
        (rest : List (List (PyStr × PyStr))) (st : RunState),
      (∀ a, bcall idx a = none) →
      runBatchesAux maxR bcall idx (chunk2 :: rest) st =
        runBatchesAux maxR bcall (idx + 1) rest st) := by
  have hret : retryCall call maxR =
      (some lines, (List.range k).map (fun j => 2 ^ j)) := by
    have := retryAux_succeeds call lines k maxR 0 hk
      (fun j hj => by simpa using hfail j hj) (by simpa using hsucc)
    simpa [retryCall] using this
  refine ⟨?_, ?_, ?_⟩
  · unfold process_batch
    rw [hret]
    refine ⟨rfl, rfl, by simp, ?_, ?_⟩
    · intro i hi
      rw [List.get?_map, List.get?_map, List.get?_range (by omega),
        List.get?_range (by omega)]
      simp only [Option.map_some']
      rw [pow_succ]
      ring_nf
    · refine List.Pairwise.map _ ?_ (List.pairwise_lt_range k)
      intro a b hab
      exact Nat.pow_le_pow_right (by omega) (Nat.le_of_lt hab)
  · intro call2 hfail2
    have hf2 : (retryCall call2 maxR).1 = none :=
      retryAux_all_fail call2 hfail2 maxR 0
    rw [process_batch_of_retry_fail chunk output hf2]
    exact ⟨rfl, rfl⟩
  · intro bcall idx chunk2 rest st hfail2
    have hf2 : (retryCall (bcall idx) maxR).1 = none :=
      retryAux_all_fail (bcall idx) hfail2 maxR 0
    exact runBatchesAux_failed_step
      (by rw [process_batch_of_retry_fail chunk2 st.output hf2])

/-- C6 witness: `max_retries = 3`, failure on attempts 0 and 1, success on
attempt 2: the batch succeeds with delays `[1, 2]`. -/
theorem process_batch_retry_spec_witness :
    (2 < 3 ∧ (∀ j < 2, (fun a => if a < 2 then none else
        some [" ok".toList]) j = none) ∧
      (fun a : Nat => if a < 2 then none else some [" ok".toList]) 2 =
        some [" ok".toList]) ∧
    (process_batch 3 (fun a => if a < 2 then none else some [" ok".toList])
        [] []).1 = true ∧
    (process_batch 3 (fun a => if a < 2 then none else some [" ok".toList])
        [] []).2.2.2 = [1, 2] := by
  have h := process_batch_retry_spec 3 2
    (fun a => if a < 2 then none else some [" ok".toList])
    [" ok".toList] [] [] (by omega)
    (fun j hj => by
      have : j < 2 := hj
      simp [this])
    (by simp)
  refine ⟨⟨by omega, fun j hj => by simp [hj], by simp⟩, h.1.1, ?_⟩
  rw [h.1.2.1]
  decide

/-! ## Partial-response application (C5 support) -/

theorem applyBatch_eq_from (chunk : List (PyStr × PyStr))
    (translated : List PyStr) (output : List (List Char × PyStr)) :
    applyBatch chunk translated output =
      applyBatchFrom translated 0 chunk output [] := rfl

theorem applyBatchFrom_nil (translated : List PyStr) (i0 : Nat)
    (out : List (List Char × PyStr)) (ws : List PyStr) :
    applyBatchFrom translated i0 [] out ws = (out, ws) := rfl

theorem applyBatchFrom_cons (translated : List PyStr) (key orig : PyStr)
    (rest : List (PyStr × PyStr)) (i0 : Nat)
    (out : List (List Char × PyStr)) (ws : List PyStr) :
    applyBatchFrom translated i0 ((key, orig) :: rest) out ws =
      if h : i0 < translated.length then
        applyBatchFrom translated (i0 + 1) rest
          (dictSet out key (translated.get ⟨i0, h⟩)) ws
      else
        applyBatchFrom translated (i0 + 1) rest (dictSet out key orig)
          (ws ++ [key]) := by
  by_cases h : i0 < translated.length <;>
    simp [applyBatchFrom, List.enumFrom, h]

theorem applyBatchFrom_spec (translated : List PyStr) :
    ∀ (chunk : List (PyStr × PyStr)) (i0 : Nat)
      (out : List (List Char × PyStr)) (ws : List PyStr),
      (chunk.map Prod.fst).Nodup →
      ((∀ k2, k2 ∉ chunk.map Prod.fst →
          dictGet (applyBatchFrom translated i0 chunk out ws).1 k2 =
            dictGet out k2) ∧
        (∀ j (hj : j < chunk.length),
          dictGet (applyBatchFrom translated i0 chunk out ws).1
              (chunk.get ⟨j, hj⟩).1 =
            some (if h : i0 + j < translated.length
              then translated.get ⟨i0 + j, h⟩
              else (chunk.get ⟨j, hj⟩).2)) ∧
        (applyBatchFrom translated i0 chunk out ws).2 =
          ws ++ (chunk.drop (translated.length - i0)).map Prod.fst) := by
  intro chunk
  induction chunk with
  | nil =>
      intro i0 out ws _
      refine ⟨fun k2 _ => rfl, fun j hj => absurd hj (by simp), ?_⟩
      simp [applyBatchFrom_nil]
  | cons p rest ih =>
      intro i0 out ws hnd
      rcases p with ⟨key, orig⟩
      rw [List.map_cons, List.nodup_cons] at hnd
      by_cases h : i0 < translated.length
      · rw [applyBatchFrom_cons, dif_pos h]
        obtain ⟨ha, hb, hc⟩ :=
          ih (i0 + 1) (dictSet out key (translated.get ⟨i0, h⟩)) ws hnd.2
        refine ⟨?_, ?_, ?_⟩
        · intro k2 hk2
          rw [List.map_cons, List.mem_cons, not_or] at hk2
          rw [ha k2 hk2.2, dictGet_dictSet_ne hk2.1]
        · intro j hj
          cases j with
          | zero =>
              have h0 : ((key, orig) :: rest).get ⟨0, hj⟩ = (key, orig) := rfl
              rw [h0, ha key hnd.1, dictGet_dictSet_self]
              simp [h]
          | succ j =>
              have hj' : j < rest.length := by
                simp only [List.length_cons] at hj
                omega
              have hstep := hb j hj'
              have hidx : i0 + 1 + j = i0 + (j + 1) := by omega
              simp only [hidx] at hstep
              have hget : ((key, orig) :: rest).get ⟨j + 1, hj⟩ =
                  rest.get ⟨j, hj'⟩ := rfl
              rw [hget]
              exact hstep
        · rw [hc]
          congr 1
          have hpos : translated.length - i0 =
              (translated.length - (i0 + 1)) + 1 := by omega
          rw [hpos, List.drop_succ_cons]
      · rw [applyBatchFrom_cons, dif_neg h]
        obtain ⟨ha, hb, hc⟩ :=
          ih (i0 + 1) (dictSet out key orig) (ws ++ [key]) hnd.2
        refine ⟨?_, ?_, ?_⟩
        · intro k2 hk2
          rw [List.map_cons, List.mem_cons, not_or] at hk2
          rw [ha k2 hk2.2, dictGet_dictSet_ne hk2.1]
        · intro j hj
          cases j with
          | zero =>
              have h0 : ((key, orig) :: rest).get ⟨0, hj⟩ = (key, orig) := rfl
              rw [h0, ha key hnd.1, dictGet_dictSet_self]
              simp [h]
          | succ j =>
              have hj' : j < rest.length := by
                simp only [List.length_cons] at hj
                omega
              have hstep := hb j hj'
              have hidx : i0 + 1 + j = i0 + (j + 1) := by omega
              simp only [hidx] at hstep
              have hget : ((key, orig) :: rest).get ⟨j + 1, hj⟩ =
                  rest.get ⟨j, hj'⟩ := rfl
              rw [hget]
              exact hstep
        · rw [hc]
          rw [show translated.length - i0 = 0 from by omega,
            show translated.length - (i0 + 1) = 0 from by omega,
            List.drop_zero, List.drop_zero, List.map_cons,
            List.append_assoc, List.singleton_append]

theorem process_batch_of_retry_success {maxR : Nat}
    {call : Nat → Option (List PyStr)} {lines : List PyStr} {ds : List Nat}
    (chunk : List (PyStr × PyStr)) (output : List (List Char × PyStr))
    (hret : retryCall call maxR = (some lines, ds)) :
    process_batch maxR call chunk output =
      (true, (applyBatch chunk (parsedItems lines) output).1,
        (applyBatch chunk (parsedItems lines) output).2, ds) := by
  unfold process_batch
  rw [hret]

/-- C5: confirmed.  When the batch's API call succeeds but the response
parses to only `p < n` items, `process_batch` still succeeds; the `j`-th
batch item (in original batch order) is assigned the `j`-th parsed
translation when `j < p` and its original source value otherwise, and the
list of per-key warnings is exactly the keys of the items from position `p`
on. -/
theorem process_batch_partial_response (maxR : Nat)
    (call : Nat → Option (List PyStr)) (lines : List PyStr) (ds : List Nat)
    (chunk : List (PyStr × PyStr)) (output : List (List Char × PyStr))
    (hret : retryCall call maxR = (some lines, ds))
    (hnd : (chunk.map Prod.fst).Nodup)
    (hp : (parsedItems lines).length < chunk.length) :
    (process_batch maxR call chunk output).1 = true ∧
    (∀ j (hj : j < chunk.length),
      dictGet (process_batch maxR call chunk output).2.1
          (chunk.get ⟨j, hj⟩).1 =
        some (if h : j < (parsedItems lines).length
          then (parsedItems lines).get ⟨j, h⟩
          else (chunk.get ⟨j, hj⟩).2)) ∧
    (process_batch maxR call chunk output).2.2.1 =
      (chunk.drop (parsedItems lines).length).map Prod.fst ∧
    (process_batch maxR call chunk output).2.2.1 ≠ [] := by
  rw [process_batch_of_retry_success chunk output hret]
  obtain ⟨_, hb, hc⟩ :=
    applyBatchFrom_spec (parsedItems lines) chunk 0 output [] hnd
  have hwarn : (applyBatch chunk (parsedItems lines) output).2 =
      (chunk.drop (parsedItems lines).length).map Prod.fst := by
    rw [applyBatch_eq_from]
    simpa using hc
  refine ⟨rfl, ?_, hwarn, ?_⟩
  · intro j hj
    have := hb j hj
    rw [applyBatch_eq_from]
    simpa using this
  · rw [hwarn]
    intro he
    rw [List.map_eq_nil_iff] at he
    have := congrArg List.length he
    rw [List.length_drop, List.length_nil] at this
    omega

/-- C5 witness: a batch of two items with a one-line response: the first
item is translated, the second falls back to its source value with a
warning, and the batch succeeds. -/
theorem process_batch_partial_response_witness :
    (retryCall (fun _ => some ["1. u".toList]) 3 =
        (some ["1. u".toList], []) ∧
      ((([("k1".toList, "v1".toList), ("k2".toList, "v2".toList)] :
          List (PyStr × PyStr)).map Prod.fst).Nodup) ∧
      (parsedItems ["1. u".toList]).length < 2) ∧
    (process_batch 3 (fun _ => some ["1. u".toList])
        [("k1".toList, "v1".toList), ("k2".toList, "v2".toList)] []).1 =
      true ∧
    (process_batch 3 (fun _ => some ["1. u".toList])
        [("k1".toList, "v1".toList), ("k2".toList, "v2".toList)] []).2.2.1 =
      [("k2".toList : PyStr)] := by
  have h := process_batch_partial_response 3 (fun _ => some ["1. u".toList])
    ["1. u".toList] []
    [("k1".toList, "v1".toList), ("k2".toList, "v2".toList)] []
    (by decide) (by decide) (by decide)
  refine ⟨⟨by decide, by decide, by decide⟩, h.1, ?_⟩
  rw [h.2.2.1]
  decide

/-! ## Failed batches and the run loop (C4 support) -/

theorem runBatchesAux_nil (maxR : Nat) (call : Nat → Nat → Option (List PyStr))
    (idx : Nat) (st : RunState) :
    runBatchesAux maxR call idx [] st = st := rfl

theorem runBatchesAux_success_step {maxR idx : Nat}
    {call : Nat → Nat → Option (List PyStr)}
    {chunk : List (PyStr × PyStr)} {rest : List (List (PyStr × PyStr))}
    {st : RunState}
    (h : (process_batch maxR (call idx) chunk st.output).1 = true) :
    runBatchesAux maxR call idx (chunk :: rest) st =
      runBatchesAux maxR call (idx + 1) rest
        { output := (process_batch maxR (call idx) chunk st.output).2.1,
          translatedCount := st.translatedCount + chunk.length,
          persisted :=
            some (process_batch maxR (call idx) chunk st.output).2.1 } := by
  rw [runBatchesAux]
  simp only [h, if_true]

theorem applyBatchFrom_get_of_not_mem (translated : List PyStr) :
    ∀ (chunk : List (PyStr × PyStr)) (i0 : Nat)
      (out : List (List Char × PyStr)) (ws : List PyStr) (k2 : List Char),
      k2 ∉ chunk.map Prod.fst →
      dictGet (applyBatchFrom translated i0 chunk out ws).1 k2 =
        dictGet out k2 := by
  intro chunk
  induction chunk with
  | nil => intro i0 out ws k2 _; rfl
  | cons p rest ih =>
      intro i0 out ws k2 hk2
      rcases p with ⟨key, orig⟩
      rw [List.map_cons, List.mem_cons, not_or] at hk2
      by_cases h : i0 < translated.length
      · rw [applyBatchFrom_cons, dif_pos h, ih _ _ _ _ hk2.2,
          dictGet_dictSet_ne hk2.1]
      · rw [applyBatchFrom_cons, dif_neg h, ih _ _ _ _ hk2.2,
          dictGet_dictSet_ne hk2.1]

theorem process_batch_get_of_not_mem {maxR : Nat}
    {call : Nat → Option (List PyStr)} {chunk : List (PyStr × PyStr)}
    {output : List (List Char × PyStr)} {k2 : List Char}
    (hk2 : k2 ∉ chunk.map Prod.fst) :
    dictGet (process_batch maxR call chunk output).2.1 k2 =
      dictGet output k2 := by
  rcases hr : retryCall call maxR with ⟨o, ds⟩
  cases o with
  | none =>
      rw [process_batch_of_retry_fail chunk output (by rw [hr])]
  | some lines =>
      rw [process_batch_of_retry_success chunk output hr,
        applyBatch_eq_from]
      exact applyBatchFrom_get_of_not_mem _ chunk 0 output [] k2 hk2

/-- A key that is absent from the initial output and belongs only to
batches whose API call always fails never appears in the in-memory output
nor in any persisted snapshot. -/
theorem runBatchesAux_key_absent (maxR : Nat)
    (call : Nat → Nat → Option (List PyStr)) (k : List Char) :
    ∀ (chunks : List (List (PyStr × PyStr))) (idx : Nat) (st : RunState),
      k ∉ st.output.map Prod.fst →
      (∀ d, st.persisted = some d → k ∉ d.map Prod.fst) →
      (∀ j ch, chunks.get? j = some ch → k ∈ ch.map Prod.fst →
        ∀ a, call (idx + j) a = none) →
      (k ∉ (runBatchesAux maxR call idx chunks st).output.map Prod.fst ∧
        ∀ d, (runBatchesAux maxR call idx chunks st).persisted = some d →
          k ∉ d.map Prod.fst) := by
  intro chunks
  induction chunks with
  | nil =>
      intro idx st h1 h2 _
      rw [runBatchesAux_nil]
      exact ⟨h1, h2⟩
  | cons ch rest ih =>
      intro idx st h1 h2 h3
      have hshift : ∀ j ch2, rest.get? j = some ch2 →
          k ∈ ch2.map Prod.fst → ∀ a, call (idx + 1 + j) a = none := by
        intro j ch2 hj hkj a
        have := h3 (j + 1) ch2 (by simpa using hj) hkj a
        rw [show idx + 1 + j = idx + (j + 1) from by omega]
        exact this
      by_cases hk : k ∈ ch.map Prod.fst
      · have hfail : ∀ a, call idx a = none := fun a => by
          have := h3 0 ch rfl hk a
          simpa using this
        have hf2 : (retryCall (call idx) maxR).1 = none :=
          retryAux_all_fail _ hfail maxR 0
        rw [runBatchesAux_failed_step
          (by rw [process_batch_of_retry_fail ch st.output hf2])]
        exact ih (idx + 1) st h1 h2 hshift
      · have hpres : dictGet (process_batch maxR (call idx) ch
            st.output).2.1 k = dictGet st.output k :=
          process_batch_get_of_not_mem hk
        have hknew : k ∉ ((process_batch maxR (call idx) ch
            st.output).2.1).map Prod.fst := by
          rw [← dictGet_eq_none_iff, hpres, dictGet_eq_none_iff]
          exact h1
        cases hpb : (process_batch maxR (call idx) ch st.output).1 with
        | false =>
            rw [runBatchesAux_failed_step hpb]
            exact ih (idx + 1) st h1 h2 hshift
        | true =>
            rw [runBatchesAux_success_step hpb]
            refine ih (idx + 1) _ hknew ?_ hshift
            intro d hd
            injection hd with hd
            exact hd ▸ hknew

/-- C4: corrected (amended).  When a batch's attempts are exhausted the run
does continue — the loop steps to the next batch with the run state
untouched (first conjunct) — but the failed batch's items are NOT retained
with their original values: a key belonging only to failed batches is
absent from the final in-memory output and from every persisted snapshot
(remaining conjuncts). -/
theorem failed_batch_items_dropped (maxR : Nat)
    (call : Nat → Nat → Option (List PyStr))
    (chunks : List (List (PyStr × PyStr)))
    (init : List (List Char × PyStr)) (i : Nat) (k : List Char)
    (hfail : ∀ a, call i a = none)
    (hin : ∃ ch, chunks.get? i = some ch ∧ k ∈ ch.map Prod.fst)
    (hinit : k ∉ init.map Prod.fst)
    (hother : ∀ j ch, j ≠ i → chunks.get? j = some ch →
      k ∉ ch.map Prod.fst) :
    (∀ (chunk2 : List (PyStr × PyStr)) (rest : List (List (PyStr × PyStr)))
        (st : RunState) (idx : Nat), (∀ a, call idx a = none) →
      runBatchesAux maxR call idx (chunk2 :: rest) st =
        runBatchesAux maxR call (idx + 1) rest st) ∧
    k ∉ (runBatches maxR call chunks init).output.map Prod.fst ∧
    (∀ d, (runBatches maxR call chunks init).persisted = some d →
      k ∉ d.map Prod.fst) := by
  refine ⟨?_, ?_⟩
  · intro chunk2 rest st idx hfail2
    have hf2 : (retryCall (call idx) maxR).1 = none :=
      retryAux_all_fail _ hfail2 maxR 0
    exact runBatchesAux_failed_step
      (by rw [process_batch_of_retry_fail chunk2 st.output hf2])
  · have h := runBatchesAux_key_absent maxR call k chunks 0
      { output := init, translatedCount := 0, persisted := none }
      hinit (fun d hd => by cases hd) ?_
    · exact h
    · intro j ch hj hkj a
      by_cases hij : j = i
      · subst hij
        simpa using hfail a
      · exact absurd hkj (hother j ch hij hj)

/-- C4 counterexample: a two-batch run where batch 0 (holding key `a`)
exhausts its retries and batch 1 succeeds.  The run continues — batch 1's
item `b` is translated, counted and persisted — but the final persisted
output does not contain key `a` at all, contradicting the claim that failed
items are present with their original values. -/
theorem failed_batch_items_dropped_counterexample :
    (runBatches 3
        (fun b _ => if b = 0 then none else some ["1. z".toList])
        [[("a".toList, "x".toList)], [("b".toList, "y".toList)]]
        []).persisted = some [("b".toList, "z".toList)] ∧
    (runBatches 3
        (fun b _ => if b = 0 then none else some ["1. z".toList])
        [[("a".toList, "x".toList)], [("b".toList, "y".toList)]]
        []).output = [("b".toList, "z".toList)] ∧
    (runBatches 3
        (fun b _ => if b = 0 then none else some ["1. z".toList])
        [[("a".toList, "x".toList)], [("b".toList, "y".toList)]]
        []).translatedCount = 1 ∧
    dictGet [(("b".toList : List Char), ("z".toList : PyStr))]
      "a".toList = none := by
  decide

/-- C4 witness: the amended theorem applied to the concrete two-batch run
of the counterexample. -/
theorem failed_batch_items_dropped_witness :
    ((∀ a, (fun b (_ : Nat) =>
        if b = 0 then (none : Option (List PyStr))
        else some ["1. z".toList]) 0 a = none)) ∧
    ("a".toList ∉ (runBatches 3
        (fun b _ => if b = 0 then none else some ["1. z".toList])
        [[("a".toList, "x".toList)], [("b".toList, "y".toList)]]
        []).output.map Prod.fst) := by
  have h := failed_batch_items_dropped 3
    (fun b _ => if b = 0 then none else some ["1. z".toList])
    [[("a".toList, "x".toList)], [("b".toList, "y".toList)]] [] 0
    "a".toList (fun a => by simp)
    ⟨[("a".toList, "x".toList)], rfl, by decide⟩ (by decide)
    ?_
  · exact ⟨fun a => by simp, h.2.1⟩
  · intro j ch hne hj
    cases j with
    | zero => exact absurd rfl hne
    | succ j =>
        cases j with
        | zero =>
            have hch : ch = [("b".toList, "y".toList)] := by
              have h2 : some [("b".toList, "y".toList)] = some ch := hj
              injection h2 with h2
              exact h2.symm
            subst hch
            decide
        | succ j =>
            rw [List.get?_eq_none.mpr (by simp)] at hj
            cases hj

/-! ## Telemetry summary division guard (C7) -/

/-- C7 counterexample: with a zero total elapsed time the summary
computation produces no report at all — the first division raises
`ZeroDivisionError` (modelled `none`) instead of reporting the figures with
an undefined throughput, so the claimed guard does not exist. -/
theorem print_final_summary_zero_time_raises :
    print_final_summary_figures 0 0 0 5 = none ∧
    ∀ q : ℚ × ℚ × ℚ × ℚ, print_final_summary_figures 0 0 0 5 ≠ some q := by
  have h : print_final_summary_figures 0 0 0 5 = none := by
    simp [print_final_summary_figures, pyDiv]
  exact ⟨h, fun q hq => by rw [h] at hq; cases hq⟩

/-- C7: corrected (amended).  `print_final_summary` does not guard its
divisions by the total elapsed run time: for a non-zero total time the four
figures are the plain ratios, and for a zero total time every input makes
the computation raise `ZeroDivisionError` (`none`) — no report with an
"undefined" throughput is produced. -/
theorem print_final_summary_figures_spec (t a f : ℚ) (i : ℕ)
    (ht : t ≠ 0) :
    print_final_summary_figures t a f i =
      some (a / t * 100, f / t * 100, (t - a - f) / t * 100, (i : ℚ) / t) ∧
    print_final_summary_figures 0 a f i = none := by
  constructor
  · simp [print_final_summary_figures, pyDiv, ht]
  · simp [print_final_summary_figures, pyDiv]

/-- C7 witness: the amended theorem at total time 10s, API time 4s, file
time 1s, 20 items: 40% / 10% / 50% and 2 items per second. -/
theorem print_final_summary_figures_spec_witness :
    ((10 : ℚ) ≠ 0) ∧
    print_final_summary_figures 10 4 1 20 = some (40, 10, 50, 2) ∧
    print_final_summary_figures 0 4 1 20 = none := by
  have h := print_final_summary_figures_spec 10 4 1 20 (by norm_num)
  refine ⟨by norm_num, ?_, h.2⟩
  rw [h.1]
  norm_num

end YamlTranslator
